import Mathlib

/-!
Shallow embedding of `src/egui/src/paint/font.rs` (text layout and glyph cache).

Modelling decisions:
* `f32` values are embedded as exact rationals (`ℚ`); `f32::round` is modelled
  by Mathlib's `round` on `ℚ`.
* The external collaborators (the rusttype outline source and the texture
  atlas, out of scope per the spec) are abstracted as function-valued fields of
  `FontParams`: the glyph id table, the scaled advance widths, the pair-kerning
  table and the rasterized uv-rectangle of each character.
* The concurrent glyph cache `RwLock<AHashMap<char, GlyphInfo>>` is embedded
  as explicit state passing over `CacheState := Char → Option GlyphInfo`.
* `Row` and `Galley` live in the galley module of this repository, which is
  not under `src/`; those definitions are modelled from the spec (see their
  doc comments).
-/

namespace FontSpec

/-- Unicode White_Space test as used by Rust's `char::is_whitespace`, which the
source calls in `layout_paragraph_max_width`. -/
def rustIsWhitespace (c : Char) : Bool :=
  let n := c.toNat
  (Nat.ble 9 n && Nat.ble n 13) || n == 32 || n == 0x85 || n == 0xA0 ||
    n == 0x1680 || (Nat.ble 0x2000 n && Nat.ble n 0x200A) || n == 0x2028 ||
    n == 0x2029 || n == 0x202F || n == 0x205F || n == 0x3000

/-- Source: `const NON_BREAKING_SPACE: char = '\u{A0}';` in
`layout_paragraph_max_width`. -/
def NON_BREAKING_SPACE : Char := Char.ofNat 0xA0

/-- The condition under which `layout_paragraph_max_width` records a character
as a break candidate: `chr.is_whitespace() && chr != NON_BREAKING_SPACE`. -/
def breakable (c : Char) : Bool := rustIsWhitespace c && !(c == NON_BREAKING_SPACE)

/-- Source struct `UvRect` (texture placement of a rasterized glyph). -/
structure UvRect where
  offset : ℚ × ℚ
  size : ℚ × ℚ
  min : ℕ × ℕ
  max : ℕ × ℕ
deriving DecidableEq

/-- Source struct `GlyphInfo`. `id` is the rusttype glyph id (`0` = missing). -/
structure GlyphInfo where
  id : ℕ
  advance_width : ℚ
  uv_rect : Option UvRect
deriving DecidableEq

/-- The immutable per-font data: the abstraction of the rusttype font, the
texture atlas and the construction-time configuration of `Font::new`.
`glyphId`, `advanceWidthPixels`, `kern` and `uvRect` stand for the external
outline source and rasterizer (spec section 6): `font.glyph(c).id()`,
`glyph.unpositioned().h_metrics().advance_width` at `scale_in_pixels`,
`font.pair_kerning(scale, a, b)`, and the atlas placement computed by
`allocate_glyph`. -/
structure FontParams where
  glyphId : Char → ℕ
  advanceWidthPixels : Char → ℚ
  kern : ℕ → ℕ → ℚ
  uvRect : Char → Option UvRect
  scale_in_pixels : ℚ
  pixels_per_point : ℚ

/-- Source fn `allocate_glyph`: fails (returns `none`) exactly when the font
has no glyph for the character (`glyph.id().0 == 0`); otherwise produces the
glyph id, the advance width converted to points, and the uv-rectangle
computed by the (abstracted) atlas/rasterizer. -/
def allocate_glyph (p : FontParams) (c : Char) : Option GlyphInfo :=
  if p.glyphId c = 0 then none
  else some ⟨p.glyphId c, p.advanceWidthPixels c / p.pixels_per_point, p.uvRect c⟩

/-- Source struct `Font` (minus the mutable cache, which is passed
explicitly as a `CacheState`): `replacement_glyph_info` is computed in
`Font::new` from `REPLACEMENT_CHAR` and is asserted to exist. -/
structure Font where
  params : FontParams
  replacement_glyph_info : GlyphInfo

/-- The contents of `glyph_infos: RwLock<AHashMap<char, GlyphInfo>>`. -/
def CacheState : Type := Char → Option GlyphInfo

/-- Source: `Font::round_to_pixel`:
`(point * self.pixels_per_point).round() / self.pixels_per_point`. -/
def Font.round_to_pixel (f : Font) (x : ℚ) : ℚ :=
  (round (x * f.params.pixels_per_point) : ℚ) / f.params.pixels_per_point

/-- Source: `Font::row_height`: `self.scale_in_pixels / self.pixels_per_point`. -/
def Font.row_height (f : Font) : ℚ :=
  f.params.scale_in_pixels / f.params.pixels_per_point

/-- Source: `Font::glyph_info`: fast path reads the cache; on a miss,
`allocate_glyph` is attempted, its failure replaced by
`replacement_glyph_info`, and the result inserted into the cache. -/
def Font.glyph_info (f : Font) (s : CacheState) (c : Char) : GlyphInfo × CacheState :=
  match s c with
  | some gi => (gi, s)
  | none =>
      let gi := (allocate_glyph f.params c).getD f.replacement_glyph_info
      (gi, fun c2 => if c2 = c then some gi else s c2)

/-- Source: `Font::uv_rect`:
`self.glyph_infos.read().get(&c).and_then(|gi| gi.uv_rect)` — a read-only
cache access; the state component records that the map is untouched. -/
def Font.uv_rect (_f : Font) (s : CacheState) (c : Char) : Option UvRect × CacheState :=
  ((s c).bind fun gi => gi.uv_rect, s)

/-- Source: `Font::glyph_width`: `self.glyph_info(c).advance_width`. -/
def Font.glyph_width (f : Font) (s : CacheState) (c : Char) : ℚ × CacheState :=
  ((f.glyph_info s c).1.advance_width, (f.glyph_info s c).2)

/-- The value `glyph_info` yields for a character independently of the cache:
the allocated glyph, or the replacement glyph when allocation fails. Every
cache entry ever inserted equals this value (`Consistent` below), so layout,
which only consumes the returned `GlyphInfo`s, is defined directly over it. -/
def glyphInfoPure (f : Font) (c : Char) : GlyphInfo :=
  (allocate_glyph f.params c).getD f.replacement_glyph_info

/-- A cache whose every entry is the value `glyph_info` would (re)compute —
the invariant maintained by `Font::new` preloading and by every insertion. -/
def Consistent (f : Font) (s : CacheState) : Prop :=
  ∀ c gi, s c = some gi → gi = glyphInfoPure f c

/-- Source: the character loop body of `Font::layout_single_row_fragment`:
add pair kerning (converted to points) for every character after the first,
add the advance width, round the cursor to the pixel grid, and record it. -/
def fragAux (f : Font) : ℚ → Option ℕ → List Char → List ℚ
  | _, _, [] => []
  | cursor, last, c :: rest =>
      let gi := glyphInfoPure f c
      let cursor1 :=
        match last with
        | some lg => cursor + f.params.kern lg gi.id / f.params.pixels_per_point
        | none => cursor
      let cursor2 := f.round_to_pixel (cursor1 + gi.advance_width)
      cursor2 :: fragAux f cursor2 (some gi.id) rest

/-- Source: `Font::layout_single_row_fragment`: cumulative x offsets, starting
at `0.0`, one entry per character appended by the loop. -/
def Font.layout_single_row_fragment (f : Font) (text : List Char) : List ℚ :=
  0 :: fragAux f 0 none text

/-- Hypotheses on the (external) font data under which cursor positions are
monotone: positive pixel density, non-negative advance widths, and pair
kerning that never pulls a glyph back past the previous cursor position. -/
structure TameFont (f : Font) : Prop where
  ppp_pos : 0 < f.params.pixels_per_point
  adv_nonneg : ∀ c, 0 ≤ (glyphInfoPure f c).advance_width
  kern_bounded : ∀ g c,
    0 ≤ f.params.kern g (glyphInfoPure f c).id / f.params.pixels_per_point +
        (glyphInfoPure f c).advance_width

/-- A value lying on the pixel grid (an integer multiple of one pixel). -/
def OnGrid (f : Font) (x : ℚ) : Prop :=
  ∃ n : ℤ, x = n / f.params.pixels_per_point

/-- Modelled from the spec: struct `Row` of the galley module
(`crate::paint::Row`), which is not under `src/`; fields and their meaning
are given in spec section 3. -/
structure Row where
  x_offsets : List ℚ
  y_min : ℚ
  y_max : ℚ
  ends_with_newline : Bool
deriving DecidableEq, Inhabited

/-- Modelled from the spec: `Row::max_x`, the right edge of the row — the last
cumulative offset (spec section 3: offsets entry i is the right edge of the
i-th character). -/
def Row.max_x (r : Row) : ℚ := r.x_offsets.getLastD 0

/-- Modelled from the spec: struct `Galley` of the galley module, which is not
under `src/` (spec section 3). `Galley::sanity_check` is an assertion with no
effect on the produced value and is not modelled. -/
structure Galley where
  text : List Char
  rows : List Row
  size : ℚ × ℚ
deriving DecidableEq

/-- Source: `Font::layout_single_line`: one row built from the whole text,
spanning `0 .. row_height` vertically, never marked `ends_with_newline`. -/
def Font.layout_single_line (f : Font) (text : List Char) : Galley :=
  let x_offsets := f.layout_single_row_fragment text
  let row : Row :=
    { x_offsets := x_offsets, y_min := 0, y_max := f.row_height,
      ends_with_newline := false }
  let width := row.max_x
  { text := text, rows := [row], size := (width, f.row_height) }

/-- A concrete font instance for witnesses: unit pixel density, unit advance
widths, no kerning, and no glyph for the newline character (mirroring real
fonts, where control characters have glyph id 0). -/
def testParams : FontParams :=
  { glyphId := fun c => if c = Char.ofNat 10 then 0 else c.toNat + 1
    advanceWidthPixels := fun _ => 1
    kern := fun _ _ => 0
    uvRect := fun _ => none
    scale_in_pixels := 1
    pixels_per_point := 1 }

def testFont : Font :=
  { params := testParams
    replacement_glyph_info := ⟨64, 1, none⟩ }

/-- The mutable locals of the wrapping loop in
`Font::layout_paragraph_max_width`: `first_row_indentation` (mutable in the
source), `row_start_x`, `cursor_y`, `row_start_idx`, `last_space`, `out_rows`. -/
structure ParaState where
  indent : ℚ
  row_start_x : ℚ
  cursor_y : ℚ
  row_start_idx : ℕ
  last_space : Option ℕ
  out_rows : List Row
deriving DecidableEq

/-- Source: the `Row` built when the wrapping loop breaks at the remembered
whitespace: `full_x_offsets[row_start_idx ..= last_space_idx + 1]`, each
shifted by `first_row_indentation + x - row_start_x`. -/
def emitRow (f : Font) (full : List ℚ) (st : ParaState) (last_space_idx : ℕ) : Row :=
  { x_offsets :=
      ((full.drop st.row_start_idx).take (last_space_idx + 2 - st.row_start_idx)).map
        (fun x0 => st.indent + x0 - st.row_start_x)
    y_min := st.cursor_y
    y_max := st.cursor_y + f.row_height
    ends_with_newline := false }

/-- Source: the state updates of the break-at-whitespace branch of the loop. -/
def emitBreak (f : Font) (full : List ℚ) (st : ParaState) (last_space_idx : ℕ) : ParaState :=
  { st with
      out_rows := st.out_rows ++ [emitRow f full st last_space_idx]
      row_start_idx := last_space_idx + 1
      row_start_x := st.indent + full.getD (last_space_idx + 1) 0
      last_space := none
      cursor_y := f.round_to_pixel (st.cursor_y + f.row_height) }

/-- Source: the indentation-only blank first row. -/
def indentRow (f : Font) (st : ParaState) : Row :=
  { x_offsets := [st.indent]
    y_min := st.cursor_y
    y_max := st.cursor_y + f.row_height
    ends_with_newline := false }

/-- Source: the state updates of the blank-first-row branch of the loop
(afterwards all rows continue as if there were no indentation). -/
def indentBreak (f : Font) (st : ParaState) : ParaState :=
  { st with
      out_rows := st.out_rows ++ [indentRow f st]
      cursor_y := f.round_to_pixel (st.cursor_y + f.row_height)
      indent := 0 }

/-- Source: the body of the wrapping loop of `Font::layout_paragraph_max_width`
for `(i, (x, chr))`: on overflow, either break at the remembered whitespace
(keeping the trailing space on the emitted row), or — only when nothing was
emitted yet and a positive first-row indentation exists — emit the
indentation-only blank first row; afterwards remember `chr` as a break
candidate when it is breakable whitespace. -/
def paraStep (f : Font) (full : List ℚ) (w : ℚ) (i : ℕ) (x : ℚ) (chr : Char)
    (st : ParaState) : ParaState :=
  let potential_row_width := st.indent + x - st.row_start_x
  let st1 :=
    if w < potential_row_width then
      match st.last_space with
      | some last_space_idx => emitBreak f full st last_space_idx
      | none =>
          if st.out_rows.isEmpty ∧ 0 < st.indent then indentBreak f st else st
    else st
  if breakable chr then { st1 with last_space := some i } else st1

/-- Source: the final flush of `layout_paragraph_max_width`: the row holding
`full_x_offsets[row_start_idx..]`, shifted like every other row. -/
def finalRow (f : Font) (full : List ℚ) (st : ParaState) : Row :=
  { x_offsets := (full.drop st.row_start_idx).map (fun x0 => st.indent + x0 - st.row_start_x)
    y_min := st.cursor_y
    y_max := st.cursor_y + f.row_height
    ends_with_newline := false }

/-- Source: the `for (i, (x, chr)) in full_x_offsets.iter().skip(1)
.zip(text.chars()).enumerate()` loop of `layout_paragraph_max_width`. -/
def paraLoop (f : Font) (full : List ℚ) (w : ℚ) : ℕ → List (ℚ × Char) → ParaState → ParaState
  | _, [], st => st
  | i, (x, chr) :: rest, st => paraLoop f full w (i + 1) rest (paraStep f full w i x chr st)

/-- Source: `Font::layout_paragraph_max_width`: empty text yields the single
indentation-only row; otherwise the wrapping loop runs over the precomputed
offsets, and the remaining characters (if any) are flushed as a final row. -/
def Font.layout_paragraph_max_width (f : Font) (text : List Char)
    (first_row_indentation w : ℚ) : List Row :=
  if text.isEmpty then
    [{ x_offsets := [first_row_indentation], y_min := 0, y_max := f.row_height,
       ends_with_newline := false }]
  else
    let full := f.layout_single_row_fragment text
    let st := paraLoop f full w 0 ((full.drop 1).zip text)
      ⟨first_row_indentation, 0, 0, 0, none, []⟩
    if st.row_start_idx + 1 < full.length then st.out_rows ++ [finalRow f full st]
    else st.out_rows

/-- Source: `paragraph_rows.last_mut().unwrap().ends_with_newline = ...` —
set the flag on the last row of a paragraph. -/
def setLastNewlineFlag : List Row → Bool → List Row
  | [], _ => []
  | [r], b => [{ r with ends_with_newline := b }]
  | r :: r2 :: rest, b => r :: setLastNewlineFlag (r2 :: rest) b

/-- Source: `row.y_min += cursor_y; row.y_max += cursor_y` — shift a row down
to the running vertical cursor. -/
def shiftRow (cursor_y : ℚ) (r : Row) : Row :=
  { r with y_min := r.y_min + cursor_y, y_max := r.y_max + cursor_y }

/-- Source: one iteration of the paragraph loop of
`layout_multiline_with_indentation_and_max_width`, producing the rows of the
paragraph that starts the remaining text: the paragraph (text up to the next
newline) is laid out with the given indentation, its last row is flagged when
a newline terminated it, and every row is shifted down by the running
`cursor_y`. -/
def paraRows (f : Font) (w line_indentation cursor_y : ℚ)
    (remaining : List Char) : List Row :=
  let paragraph_text := remaining.takeWhile (fun c2 => c2 != Char.ofNat 10)
  let next_newline := decide (paragraph_text.length < remaining.length)
  let paragraph_rows := f.layout_paragraph_max_width paragraph_text line_indentation w
  let paragraph_rows := setLastNewlineFlag paragraph_rows next_newline
  paragraph_rows.map (shiftRow cursor_y)

/-- Source: the `while paragraph_start < text.len()` loop of
`Font::layout_multiline_with_indentation_and_max_width`: split the remaining
text at the next newline, lay the paragraph out (with the requested
indentation only while no rows have been produced yet, exactly as
`rows.is_empty()` tests), then continue after the newline with `cursor_y`
advanced past the paragraph plus a 40 percent row gap. Returns the
accumulated rows and the final `cursor_y`. -/
def mlLoop (f : Font) (first_row_indentation w : ℚ) :
    List Char → ℚ → List Row → List Row × ℚ
  | [], cursor_y, rows => (rows, cursor_y)
  | chr :: remaining1, cursor_y, rows =>
      let remaining := chr :: remaining1
      let paragraph_text := remaining.takeWhile (fun c2 => c2 != Char.ofNat 10)
      let line_indentation := if rows.isEmpty then first_row_indentation else 0
      let paragraph_rows := paraRows f w line_indentation cursor_y remaining
      let cursor_y2 := (paragraph_rows.getLastD default).y_max + f.row_height * (2 / 5)
      mlLoop f first_row_indentation w (remaining.drop (paragraph_text.length + 1))
        cursor_y2 (rows ++ paragraph_rows)
termination_by remaining _ _ => remaining.length
decreasing_by
  simp only [List.length_drop, List.length_cons]
  omega

/-- Source: `Font::layout_multiline_with_indentation_and_max_width`: run the
paragraph loop; when the text is empty or ends with a newline, append one
final empty row; the galley size is the widest row by the bottom of the last
row. -/
def Font.layout_multiline_with_indentation_and_max_width (f : Font)
    (text : List Char) (first_row_indentation max_width_in_points : ℚ) : Galley :=
  let lp := mlLoop f first_row_indentation max_width_in_points text 0 []
  let rows :=
    if text.isEmpty ∨ text.getLast? = some (Char.ofNat 10) then
      lp.1 ++ [{ x_offsets := [0], y_min := lp.2, y_max := lp.2 + f.row_height,
                 ends_with_newline := false }]
    else lp.1
  let widest_row := rows.foldl (fun acc r => max (Row.max_x r) acc) 0
  { text := text, rows := rows, size := (widest_row, (rows.getLastD default).y_max) }

/-- Source: `Font::layout_multiline`, delegating with zero indentation. -/
def Font.layout_multiline (f : Font) (text : List Char) (max_width_in_points : ℚ) : Galley :=
  f.layout_multiline_with_indentation_and_max_width text 0 max_width_in_points

/-- Number of characters laid out on a row: one less than its offsets. -/
def nchars (r : Row) : ℕ := r.x_offsets.length - 1

/-- Number of source characters a row accounts for: its own characters plus
the newline it was terminated by, if any. -/
def rowWeight (r : Row) : ℕ := nchars r + (if r.ends_with_newline then 1 else 0)

/-- First cumulative offset of a row. -/
def headOff (r : Row) : ℚ := r.x_offsets.headD 0

/-- Last cumulative offset of a row. -/
def lastOff (r : Row) : ℚ := r.x_offsets.getLastD 0

/-- Rendered width of a row: last offset minus first offset. -/
def rowWidth (r : Row) : ℚ := lastOff r - headOff r

/-- Index in the source string of the first character of row `k`: the
characters (and terminating newlines) accounted for by the earlier rows. -/
def rowStart (rows : List Row) (k : ℕ) : ℕ := ((rows.take k).map rowWeight).sum

/-- Difference of two cumulative offsets. -/
def wdiff (full : List ℚ) (a b : ℕ) : ℚ := full.getD b 0 - full.getD a 0

/-- Row `k` of `rows` keeps the wrapping contract with respect to source text
`t` and width `w`: its rendered width fits in `w`, or it consists of a single
unbreakable word, possibly followed by one trailing whitespace character. -/
def GoodRow (t : List Char) (w : ℚ) (rows : List Row) (k : ℕ) : Prop :=
  rowWidth (rows.getD k default) ≤ w ∨
    ∀ j, rowStart rows k ≤ j → j + 1 < rowStart rows k + nchars (rows.getD k default) →
      breakable (t.getD j ' ') = false

/-- The loop invariant of the wrapping loop of `layout_paragraph_max_width`,
after `i` characters have been processed, for a paragraph `t` with cumulative
offsets `full`, wrap width `w` and requested first-row indentation `ι`. -/
structure PInv (f : Font) (t : List Char) (full : List ℚ) (w ι : ℚ)
    (i : ℕ) (st : ParaState) : Prop where
  rs_le : st.row_start_idx ≤ i
  rs_lt : st.row_start_idx < t.length
  nsum : (st.out_rows.map rowWeight).sum = st.row_start_idx
  flags : ∀ r ∈ st.out_rows, r.ends_with_newline = false
  hts : ∀ r ∈ st.out_rows, r.y_max - r.y_min = f.row_height
  good : ∀ k, k < st.out_rows.length → GoodRow t w st.out_rows k
  lsp : ∀ ls, st.last_space = some ls →
      st.row_start_idx ≤ ls ∧ ls < i ∧
      (∀ j, ls < j → j < i → breakable (t.getD j ' ') = false) ∧
      (wdiff full st.row_start_idx (ls + 1) ≤ w ∨
        ∀ j, st.row_start_idx ≤ j → j < ls → breakable (t.getD j ' ') = false)
  lsn : st.last_space = none →
      ∀ j, st.row_start_idx ≤ j → j < i → breakable (t.getD j ' ') = false
  ebig : w < wdiff full st.row_start_idx i →
      ∀ j, st.row_start_idx ≤ j → j + 1 < i → breakable (t.getD j ' ') = false
  dnn : 0 ≤ st.indent + full.getD st.row_start_idx 0 - st.row_start_x
  femp : st.out_rows = [] → st.indent = ι ∧ st.row_start_x = 0 ∧ st.row_start_idx = 0
  hne : st.out_rows ≠ [] →
      st.indent + full.getD st.row_start_idx 0 - st.row_start_x = 0
  hhead : st.out_rows ≠ [] → headOff (st.out_rows.headD default) = ι
  htail : ∀ k, 1 ≤ k → k < st.out_rows.length →
      headOff (st.out_rows.getD k default) = 0

/-- Everything `layout_paragraph_max_width` guarantees about its result, for a
paragraph `t` laid out at width `w` with first-row indentation `ι`: at least
one row; the rows account for exactly the characters of `t`; no row is marked
as newline-terminated; every row is one row height tall; every row fits the
width or is a single unbreakable word (plus at most one trailing whitespace
character); the first row starts at the indentation and all later rows at 0. -/
structure ParaOut (f : Font) (t : List Char) (w ι : ℚ) (rows : List Row) : Prop where
  ne : rows ≠ []
  nsum : (rows.map rowWeight).sum = t.length
  flags : ∀ r ∈ rows, r.ends_with_newline = false
  hts : ∀ r ∈ rows, r.y_max - r.y_min = f.row_height
  good : ∀ k, k < rows.length → GoodRow t w rows k
  hhead : headOff (rows.headD default) = ι
  htail : ∀ k, 1 ≤ k → k < rows.length → headOff (rows.getD k default) = 0

/-- What each call of the paragraph loop of
`layout_multiline_with_indentation_and_max_width` guarantees about the rows
`nr` it appends for the remaining text `rem`, when the first paragraph of
`rem` is laid out with indentation `ι0`: the appended rows are non-empty for
non-empty remaining text; they account for exactly the characters of `rem`
(terminating newlines included); the newline-flagged rows are exactly the
newlines of `rem`; every row is one row height tall; every row keeps the
wrapping contract; the very first row starts at `ι0` and every other row at
0. -/
structure MlOut (f : Font) (w ι0 : ℚ) (rem : List Char) (nr : List Row) : Prop where
  ne : rem ≠ [] → nr ≠ []
  nsum : (nr.map rowWeight).sum = rem.length
  flagcnt : nr.countP (fun r => r.ends_with_newline) = rem.count (Char.ofNat 10)
  hts : ∀ r ∈ nr, r.y_max - r.y_min = f.row_height
  good : ∀ m, m < nr.length → GoodRow rem w nr m
  hhead : rem ≠ [] → headOff (nr.headD default) = ι0
  htail : ∀ m, 1 ≤ m → m < nr.length → headOff (nr.getD m default) = 0

lemma glyph_info_eq_pure (f : Font) (s : CacheState) (c : Char)
    (h : Consistent f s) :
    (f.glyph_info s c).1 = glyphInfoPure f c ∧ Consistent f (f.glyph_info s c).2 := by
  unfold Font.glyph_info
  cases hs : s c with
  | some gi =>
      refine ⟨h c gi hs, ?_⟩
      simpa [hs] using h
  | none =>
      refine ⟨rfl, ?_⟩
      intro c2 gi2 h2
      by_cases hc : c2 = c
      · simp [hc] at h2
        simp [← h2, hc, glyphInfoPure]
      · simp [hc] at h2
        exact h c2 gi2 h2

lemma fragAux_length (f : Font) :
    ∀ (text : List Char) (cursor : ℚ) (last : Option ℕ),
      (fragAux f cursor last text).length = text.length := by
  intro text
  induction text with
  | nil => intro cursor last; rfl
  | cons c rest ih =>
      intro cursor last
      simp [fragAux, ih]

lemma layout_single_row_fragment_length (f : Font) (text : List Char) :
    (f.layout_single_row_fragment text).length = text.length + 1 := by
  simp [Font.layout_single_row_fragment, fragAux_length]

lemma layout_single_row_fragment_head (f : Font) (text : List Char) :
    (f.layout_single_row_fragment text).getD 0 0 = 0 := by
  simp [Font.layout_single_row_fragment]

lemma roundQ_mono {x y : ℚ} (h : x ≤ y) : (round x : ℤ) ≤ round y := by
  rw [round_eq, round_eq]
  exact Int.floor_le_floor (by linarith)

lemma round_to_pixel_ongrid (f : Font) (x : ℚ) : OnGrid f (f.round_to_pixel x) :=
  ⟨round (x * f.params.pixels_per_point), rfl⟩

lemma ongrid_round_to_pixel_ge (f : Font) (hpp : 0 < f.params.pixels_per_point)
    {x d : ℚ} (hx : OnGrid f x) (hd : 0 ≤ d) : x ≤ f.round_to_pixel (x + d) := by
  obtain ⟨n, rfl⟩ := hx
  unfold Font.round_to_pixel
  have hmul : ((n : ℚ) / f.params.pixels_per_point + d) * f.params.pixels_per_point
      = (n : ℚ) + d * f.params.pixels_per_point := by
    field_simp
  rw [hmul]
  have h1 : (n : ℤ) ≤ round ((n : ℚ) + d * f.params.pixels_per_point) := by
    have h2 : (round ((n : ℚ)) : ℤ) ≤ round ((n : ℚ) + d * f.params.pixels_per_point) :=
      roundQ_mono (by nlinarith)
    simpa using h2
  have h3 : (n : ℚ) ≤ (round ((n : ℚ) + d * f.params.pixels_per_point) : ℤ) := by
    exact_mod_cast h1
  exact div_le_div_of_nonneg_right h3 hpp.le

lemma fragAux_cons_none (f : Font) (cursor : ℚ) (c : Char) (rest : List Char) :
    fragAux f cursor none (c :: rest) =
      f.round_to_pixel (cursor + (glyphInfoPure f c).advance_width) ::
        fragAux f (f.round_to_pixel (cursor + (glyphInfoPure f c).advance_width))
          (some (glyphInfoPure f c).id) rest := rfl

lemma fragAux_cons_some (f : Font) (cursor : ℚ) (lg : ℕ) (c : Char) (rest : List Char) :
    fragAux f cursor (some lg) (c :: rest) =
      f.round_to_pixel (cursor + f.params.kern lg (glyphInfoPure f c).id /
          f.params.pixels_per_point + (glyphInfoPure f c).advance_width) ::
        fragAux f (f.round_to_pixel (cursor + f.params.kern lg (glyphInfoPure f c).id /
          f.params.pixels_per_point + (glyphInfoPure f c).advance_width))
          (some (glyphInfoPure f c).id) rest := rfl

lemma fragAux_chain (f : Font) (h : TameFont f) :
    ∀ (text : List Char) (cursor : ℚ) (last : Option ℕ), OnGrid f cursor →
      List.Chain' (· ≤ ·) (cursor :: fragAux f cursor last text) := by
  intro text
  induction text with
  | nil => intro cursor last _; simp [fragAux]
  | cons c rest ih =>
      intro cursor last hgrid
      rcases last with _ | lg
      · rw [fragAux_cons_none]
        refine List.chain'_cons.mpr ⟨?_, ?_⟩
        · exact ongrid_round_to_pixel_ge f h.ppp_pos hgrid (h.adv_nonneg c)
        · exact ih _ (some (glyphInfoPure f c).id) (round_to_pixel_ongrid f _)
      · rw [fragAux_cons_some]
        refine List.chain'_cons.mpr ⟨?_, ?_⟩
        · have hk := h.kern_bounded lg c
          have harr : cursor + f.params.kern lg (glyphInfoPure f c).id /
                f.params.pixels_per_point + (glyphInfoPure f c).advance_width
              = cursor + (f.params.kern lg (glyphInfoPure f c).id /
                f.params.pixels_per_point + (glyphInfoPure f c).advance_width) := by
            ring
          rw [harr]
          exact ongrid_round_to_pixel_ge f h.ppp_pos hgrid hk
        · exact ih _ (some (glyphInfoPure f c).id) (round_to_pixel_ongrid f _)

lemma testFont_tame : TameFont testFont := by
  refine ⟨by norm_num [testFont, testParams], ?_, ?_⟩
  · intro c
    simp only [glyphInfoPure, allocate_glyph, testFont, testParams]
    split <;> norm_num
  · intro g c
    simp only [glyphInfoPure, allocate_glyph, testFont, testParams]
    split <;> norm_num

lemma headD_eq_getD {α : Type} (l : List α) (d : α) : l.headD d = l.getD 0 d := by
  cases l <;> rfl

lemma getD_drop {α : Type} (l : List α) (d : α) (a m : ℕ) :
    (l.drop a).getD m d = l.getD (a + m) d := by
  simp [List.getD_eq_getElem?_getD, List.getElem?_drop]

lemma getD_take {α : Type} (l : List α) (d : α) (n m : ℕ) (h : m < n) :
    (l.take n).getD m d = l.getD m d := by
  simp [List.getD_eq_getElem?_getD, List.getElem?_take, h]

lemma getD_map_of_lt (g : ℚ → ℚ) (l : List ℚ) (m : ℕ) (h : m < l.length) :
    (l.map g).getD m 0 = g (l.getD m 0) := by
  rw [List.getD_eq_getElem?_getD, List.getElem?_map, List.getElem?_eq_getElem h,
    List.getD_eq_getElem?_getD, List.getElem?_eq_getElem h]
  rfl

lemma getLastD_eq_getD {α : Type} (l : List α) (d : α) (h : l ≠ []) :
    l.getLastD d = l.getD (l.length - 1) d := by
  rw [List.getLastD_eq_getLast?, List.getLast?_eq_getElem?, List.getD_eq_getElem?_getD]

lemma getD_append_of_lt {α : Type} (l1 l2 : List α) (d : α) (k : ℕ) (h : k < l1.length) :
    (l1 ++ l2).getD k d = l1.getD k d := by
  rw [List.getD_eq_getElem?_getD, List.getD_eq_getElem?_getD, List.getElem?_append]
  simp [h]

lemma getD_append_right_self {α : Type} (l1 l2 : List α) (d : α) :
    (l1 ++ l2).getD l1.length d = l2.getD 0 d := by
  rw [List.getD_eq_getElem?_getD, List.getD_eq_getElem?_getD,
    List.getElem?_append_right (le_refl l1.length)]
  simp

lemma take_append_of_le {α : Type} (l1 l2 : List α) (k : ℕ) (h : k ≤ l1.length) :
    (l1 ++ l2).take k = l1.take k := by
  rw [List.take_append_eq_append_take]
  have h2 : k - l1.length = 0 := by omega
  simp [h2]

lemma takeWhile_getD {α : Type} (p : α → Bool) (d : α) :
    ∀ (l : List α) (j : ℕ), j < (l.takeWhile p).length →
      (l.takeWhile p).getD j d = l.getD j d := by
  intro l
  induction l with
  | nil => intro j h; simp [List.takeWhile] at h
  | cons c rest ih =>
      intro j h
      by_cases hp : p c
      · rw [List.takeWhile_cons_of_pos hp] at h ⊢
        cases j with
        | zero => rfl
        | succ j2 =>
            simp only [List.getD_cons_succ]
            exact ih j2 (by simpa using h)
      · rw [List.takeWhile_cons_of_neg hp] at h
        simp at h

lemma takeWhile_eq_take_own {α : Type} (p : α → Bool) :
    ∀ (l : List α), l.takeWhile p = l.take (l.takeWhile p).length := by
  intro l
  induction l with
  | nil => rfl
  | cons c rest ih =>
      by_cases hp : p c
      · rw [List.takeWhile_cons_of_pos hp]
        simpa using ih
      · rw [List.takeWhile_cons_of_neg hp]
        rfl

lemma takeWhile_stop {α : Type} (p : α → Bool) (d : α) :
    ∀ (l : List α), (l.takeWhile p).length < l.length →
      p (l.getD (l.takeWhile p).length d) = false := by
  intro l
  induction l with
  | nil => intro h; simp at h
  | cons c rest ih =>
      intro h
      by_cases hp : p c
      · rw [List.takeWhile_cons_of_pos hp] at h ⊢
        simp only [List.length_cons, List.getD_cons_succ]
        exact ih (by simpa using h)
      · rw [List.takeWhile_cons_of_neg hp]
        simpa using hp

lemma takeWhile_length_le {α : Type} (p : α → Bool) (l : List α) :
    (l.takeWhile p).length ≤ l.length := by
  conv_rhs => rw [← List.take_append_drop (l.takeWhile p).length l]
  rw [← takeWhile_eq_take_own]
  simp

lemma rowStart_append_of_le (l1 l2 : List Row) (k : ℕ) (h : k ≤ l1.length) :
    rowStart (l1 ++ l2) k = rowStart l1 k := by
  unfold rowStart
  rw [take_append_of_le l1 l2 k h]

lemma rowStart_succ (rows : List Row) (k : ℕ) (h : k < rows.length) :
    rowStart rows (k + 1) = rowStart rows k + rowWeight (rows.getD k default) := by
  unfold rowStart
  rw [List.take_succ, List.map_append, List.sum_append, List.getElem?_eq_getElem h]
  simp [List.getD_eq_getElem?_getD, List.getElem?_eq_getElem h]

lemma rowStart_le_sum (rows : List Row) (k : ℕ) :
    rowStart rows k ≤ (rows.map rowWeight).sum := by
  unfold rowStart
  conv_rhs => rw [← List.take_append_drop k rows]
  rw [List.map_append, List.sum_append]
  omega

lemma GoodRow_append_of_lt (t : List Char) (w : ℚ) (l1 l2 : List Row) (k : ℕ)
    (h : k < l1.length) (hg : GoodRow t w l1 k) : GoodRow t w (l1 ++ l2) k := by
  unfold GoodRow at hg ⊢
  rw [rowStart_append_of_le l1 l2 k h.le, getD_append_of_lt l1 l2 default k h]
  exact hg

lemma countP_le_one_of_tail {α : Type} [Inhabited α] (P : α → Bool) :
    ∀ (l : List α), (∀ k, 1 ≤ k → k < l.length → P (l.getD k default) = false) →
      l.countP P ≤ 1 := by
  intro l
  induction l with
  | nil => intro _; simp
  | cons c rest _ =>
      intro h
      rw [List.countP_cons]
      have hrest : rest.countP P = 0 := by
        rw [List.countP_eq_zero]
        intro a ha
        obtain ⟨k, hk, hka⟩ := List.getElem_of_mem ha
        have h2 := h (k + 1) (by omega) (by simpa using Nat.succ_lt_succ hk)
        simp only [List.getD_cons_succ] at h2
        rw [List.getD_eq_getElem?_getD, List.getElem?_eq_getElem hk, hka] at h2
        simpa using h2
      rw [hrest]
      split <;> omega

lemma slice_length (full : List ℚ) (g : ℚ → ℚ) (a n : ℕ) (h : a + n ≤ full.length) :
    (((full.drop a).take n).map g).length = n := by
  simp only [List.length_map, List.length_take, List.length_drop]
  omega

lemma slice_getD (full : List ℚ) (g : ℚ → ℚ) (a n m : ℕ) (hm : m < n)
    (h : a + n ≤ full.length) :
    (((full.drop a).take n).map g).getD m 0 = g (full.getD (a + m) 0) := by
  have hlt : m < ((full.drop a).take n).length := by
    simp only [List.length_take, List.length_drop]
    omega
  rw [getD_map_of_lt _ _ _ hlt, getD_take _ _ _ _ hm, getD_drop]

lemma emitRow_nchars (f : Font) (full : List ℚ) (st : ParaState) (ls : ℕ)
    (hle : st.row_start_idx ≤ ls) (h2 : ls + 2 ≤ full.length) :
    nchars (emitRow f full st ls) = ls + 1 - st.row_start_idx := by
  unfold nchars emitRow
  simp only
  rw [slice_length full _ st.row_start_idx (ls + 2 - st.row_start_idx) (by omega)]
  omega

lemma emitRow_headOff (f : Font) (full : List ℚ) (st : ParaState) (ls : ℕ)
    (hle : st.row_start_idx ≤ ls) (h2 : ls + 2 ≤ full.length) :
    headOff (emitRow f full st ls) =
      st.indent + full.getD st.row_start_idx 0 - st.row_start_x := by
  unfold headOff emitRow
  simp only
  rw [headD_eq_getD, slice_getD full _ st.row_start_idx (ls + 2 - st.row_start_idx) 0
    (by omega) (by omega)]
  simp

lemma emitRow_lastOff (f : Font) (full : List ℚ) (st : ParaState) (ls : ℕ)
    (hle : st.row_start_idx ≤ ls) (h2 : ls + 2 ≤ full.length) :
    lastOff (emitRow f full st ls) =
      st.indent + full.getD (ls + 1) 0 - st.row_start_x := by
  unfold lastOff emitRow
  simp only
  have hne : (((full.drop st.row_start_idx).take (ls + 2 - st.row_start_idx)).map
      (fun x0 => st.indent + x0 - st.row_start_x)) ≠ [] := by
    apply List.ne_nil_of_length_pos
    rw [slice_length full _ st.row_start_idx (ls + 2 - st.row_start_idx) (by omega)]
    omega
  rw [getLastD_eq_getD _ _ hne,
    slice_length full _ st.row_start_idx (ls + 2 - st.row_start_idx) (by omega)]
  have harith : ls + 2 - st.row_start_idx - 1 < ls + 2 - st.row_start_idx := by omega
  rw [slice_getD full _ st.row_start_idx (ls + 2 - st.row_start_idx) _ harith (by omega)]
  have hidx : st.row_start_idx + (ls + 2 - st.row_start_idx - 1) = ls + 1 := by omega
  rw [hidx]

lemma emitRow_width (f : Font) (full : List ℚ) (st : ParaState) (ls : ℕ)
    (hle : st.row_start_idx ≤ ls) (h2 : ls + 2 ≤ full.length) :
    rowWidth (emitRow f full st ls) = wdiff full st.row_start_idx (ls + 1) := by
  unfold rowWidth wdiff
  rw [emitRow_headOff f full st ls hle h2, emitRow_lastOff f full st ls hle h2]
  ring

lemma emitRow_weight (f : Font) (full : List ℚ) (st : ParaState) (ls : ℕ)
    (hle : st.row_start_idx ≤ ls) (h2 : ls + 2 ≤ full.length) :
    rowWeight (emitRow f full st ls) = ls + 1 - st.row_start_idx := by
  unfold rowWeight
  rw [emitRow_nchars f full st ls hle h2]
  simp [emitRow]

lemma finalRow_xoffsets_eq_slice (f : Font) (full : List ℚ) (st : ParaState) :
    (finalRow f full st).x_offsets =
      ((full.drop st.row_start_idx).take (full.length - st.row_start_idx)).map
        (fun x0 => st.indent + x0 - st.row_start_x) := by
  unfold finalRow
  simp only
  congr 1
  rw [← List.length_drop st.row_start_idx full, List.take_length]

lemma finalRow_nchars (f : Font) (full : List ℚ) (st : ParaState)
    (h2 : st.row_start_idx + 1 ≤ full.length) :
    nchars (finalRow f full st) = full.length - st.row_start_idx - 1 := by
  unfold nchars
  rw [finalRow_xoffsets_eq_slice,
    slice_length full _ st.row_start_idx (full.length - st.row_start_idx) (by omega)]

lemma finalRow_headOff (f : Font) (full : List ℚ) (st : ParaState)
    (h2 : st.row_start_idx + 1 ≤ full.length) :
    headOff (finalRow f full st) =
      st.indent + full.getD st.row_start_idx 0 - st.row_start_x := by
  unfold headOff
  rw [finalRow_xoffsets_eq_slice, headD_eq_getD,
    slice_getD full _ st.row_start_idx (full.length - st.row_start_idx) 0
      (by omega) (by omega)]
  simp

lemma finalRow_lastOff (f : Font) (full : List ℚ) (st : ParaState)
    (h2 : st.row_start_idx + 1 ≤ full.length) :
    lastOff (finalRow f full st) =
      st.indent + full.getD (full.length - 1) 0 - st.row_start_x := by
  unfold lastOff
  rw [finalRow_xoffsets_eq_slice]
  have hne : (((full.drop st.row_start_idx).take (full.length - st.row_start_idx)).map
      (fun x0 => st.indent + x0 - st.row_start_x)) ≠ [] := by
    apply List.ne_nil_of_length_pos
    rw [slice_length full _ st.row_start_idx (full.length - st.row_start_idx) (by omega)]
    omega
  rw [getLastD_eq_getD _ _ hne,
    slice_length full _ st.row_start_idx (full.length - st.row_start_idx) (by omega)]
  have harith : full.length - st.row_start_idx - 1 < full.length - st.row_start_idx := by
    omega
  rw [slice_getD full _ st.row_start_idx (full.length - st.row_start_idx) _ harith
    (by omega)]
  have hidx : st.row_start_idx + (full.length - st.row_start_idx - 1) = full.length - 1 := by
    omega
  rw [hidx]

lemma finalRow_width (f : Font) (full : List ℚ) (st : ParaState)
    (h2 : st.row_start_idx + 1 ≤ full.length) :
    rowWidth (finalRow f full st) = wdiff full st.row_start_idx (full.length - 1) := by
  unfold rowWidth wdiff
  rw [finalRow_headOff f full st h2, finalRow_lastOff f full st h2]
  ring

lemma finalRow_weight (f : Font) (full : List ℚ) (st : ParaState)
    (h2 : st.row_start_idx + 1 ≤ full.length) :
    rowWeight (finalRow f full st) = full.length - st.row_start_idx - 1 := by
  unfold rowWeight
  rw [finalRow_nchars f full st h2]
  simp [finalRow]

lemma paraStep_no_overflow (f : Font) (full : List ℚ) (w : ℚ) (i : ℕ) (x : ℚ)
    (chr : Char) (st : ParaState) (hov : ¬ w < st.indent + x - st.row_start_x) :
    paraStep f full w i x chr st =
      if breakable chr then { st with last_space := some i } else st := by
  simp [paraStep, hov]

lemma paraStep_emit (f : Font) (full : List ℚ) (w : ℚ) (i : ℕ) (x : ℚ)
    (chr : Char) (st : ParaState) (ls : ℕ)
    (hov : w < st.indent + x - st.row_start_x) (hls : st.last_space = some ls) :
    paraStep f full w i x chr st =
      if breakable chr then { emitBreak f full st ls with last_space := some i }
      else emitBreak f full st ls := by
  simp [paraStep, hov, hls]

lemma paraStep_indent (f : Font) (full : List ℚ) (w : ℚ) (i : ℕ) (x : ℚ)
    (chr : Char) (st : ParaState)
    (hov : w < st.indent + x - st.row_start_x) (hls : st.last_space = none)
    (hcond : st.out_rows.isEmpty ∧ 0 < st.indent) :
    paraStep f full w i x chr st =
      if breakable chr then { indentBreak f st with last_space := some i }
      else indentBreak f st := by
  simp [paraStep, hov, hls, hcond.1, hcond.2]

lemma paraStep_stuck (f : Font) (full : List ℚ) (w : ℚ) (i : ℕ) (x : ℚ)
    (chr : Char) (st : ParaState)
    (hov : w < st.indent + x - st.row_start_x) (hls : st.last_space = none)
    (hcond : ¬(st.out_rows.isEmpty ∧ 0 < st.indent)) :
    paraStep f full w i x chr st =
      if breakable chr then { st with last_space := some i } else st := by
  simp only [paraStep, if_pos hov, hls]
  rw [if_neg hcond]

lemma pinv_step_no_overflow (f : Font) (t : List Char) (full : List ℚ) (w ι : ℚ)
    (i : ℕ) (st : ParaState) (hinv : PInv f t full w ι i st)
    (hov : ¬ w < st.indent + full.getD (i + 1) 0 - st.row_start_x) :
    PInv f t full w ι (i + 1)
      (paraStep f full w i (full.getD (i + 1) 0) (t.getD i ' ') st) := by
  rw [paraStep_no_overflow f full w i _ _ st hov]
  have hkey : wdiff full st.row_start_idx (i + 1) ≤ w := by
    have hd := hinv.dnn
    unfold wdiff
    push_neg at hov
    linarith
  by_cases hbr : breakable (t.getD i ' ') = true
  · rw [if_pos hbr]
    refine ⟨Nat.le_succ_of_le hinv.rs_le, hinv.rs_lt, hinv.nsum, hinv.flags, hinv.hts,
      hinv.good, ?_, ?_, ?_, hinv.dnn, hinv.femp, hinv.hne, hinv.hhead, hinv.htail⟩
    · intro ls hls
      have hlsi : ls = i := by
        simpa using hls.symm
      subst hlsi
      exact ⟨hinv.rs_le, Nat.lt_succ_self ls, fun j hj1 hj2 => by omega,
        Or.inl hkey⟩
    · intro hcontra
      simp at hcontra
    · intro hgt
      exact absurd hgt (not_lt.mpr hkey)
  · rw [if_neg hbr]
    have hbf : breakable (t.getD i ' ') = false := by
      simpa using hbr
    refine ⟨Nat.le_succ_of_le hinv.rs_le, hinv.rs_lt, hinv.nsum, hinv.flags, hinv.hts,
      hinv.good, ?_, ?_, ?_, hinv.dnn, hinv.femp, hinv.hne, hinv.hhead, hinv.htail⟩
    · intro ls hls
      obtain ⟨h1, h2, h3, h4⟩ := hinv.lsp ls hls
      refine ⟨h1, Nat.lt_succ_of_lt h2, ?_, h4⟩
      intro j hj1 hj2
      rcases Nat.lt_succ_iff_lt_or_eq.mp hj2 with hj | hj
      · exact h3 j hj1 hj
      · rw [hj]; exact hbf
    · intro hnone j hj1 hj2
      rcases Nat.lt_succ_iff_lt_or_eq.mp hj2 with hj | hj
      · exact hinv.lsn hnone j hj1 hj
      · rw [hj]; exact hbf
    · intro hgt
      exact absurd hgt (not_lt.mpr hkey)

lemma pinv_step_stuck (f : Font) (t : List Char) (full : List ℚ) (w ι : ℚ)
    (i : ℕ) (st : ParaState) (hinv : PInv f t full w ι i st)
    (hov : w < st.indent + full.getD (i + 1) 0 - st.row_start_x)
    (hls : st.last_space = none)
    (hcond : ¬(st.out_rows.isEmpty ∧ 0 < st.indent)) :
    PInv f t full w ι (i + 1)
      (paraStep f full w i (full.getD (i + 1) 0) (t.getD i ' ') st) := by
  rw [paraStep_stuck f full w i _ _ st hov hls hcond]
  have hbase := hinv.lsn hls
  have hebig : ∀ j, st.row_start_idx ≤ j → j + 1 < i + 1 →
      breakable (t.getD j ' ') = false := by
    intro j hj1 hj2
    exact hbase j hj1 (by omega)
  by_cases hbr : breakable (t.getD i ' ') = true
  · rw [if_pos hbr]
    refine ⟨Nat.le_succ_of_le hinv.rs_le, hinv.rs_lt, hinv.nsum, hinv.flags, hinv.hts,
      hinv.good, ?_, ?_, fun _ => hebig, hinv.dnn, hinv.femp, hinv.hne, hinv.hhead,
      hinv.htail⟩
    · intro ls hls2
      have hlsi : ls = i := by simpa using hls2.symm
      subst hlsi
      exact ⟨hinv.rs_le, Nat.lt_succ_self ls, fun j hj1 hj2 => by omega,
        Or.inr fun j hj1 hj2 => hbase j hj1 (by omega)⟩
    · intro hcontra
      simp at hcontra
  · rw [if_neg hbr]
    have hbf : breakable (t.getD i ' ') = false := by simpa using hbr
    refine ⟨Nat.le_succ_of_le hinv.rs_le, hinv.rs_lt, hinv.nsum, hinv.flags, hinv.hts,
      hinv.good, ?_, ?_, fun _ => hebig, hinv.dnn, hinv.femp, hinv.hne, hinv.hhead,
      hinv.htail⟩
    · intro ls hls2
      rw [hls] at hls2
      simp at hls2
    · intro _ j hj1 hj2
      rcases Nat.lt_succ_iff_lt_or_eq.mp hj2 with hj | hj
      · exact hbase j hj1 hj
      · rw [hj]; exact hbf

lemma pinv_step_indent (f : Font) (t : List Char) (full : List ℚ) (w ι : ℚ)
    (hw : 0 < w) (h0 : full.getD 0 0 = 0)
    (i : ℕ) (st : ParaState) (hinv : PInv f t full w ι i st)
    (hov : w < st.indent + full.getD (i + 1) 0 - st.row_start_x)
    (hls : st.last_space = none)
    (hcond : st.out_rows.isEmpty ∧ 0 < st.indent) :
    PInv f t full w ι (i + 1)
      (paraStep f full w i (full.getD (i + 1) 0) (t.getD i ' ') st) := by
  rw [paraStep_indent f full w i _ _ st hov hls hcond]
  have hemp : st.out_rows = [] := List.isEmpty_iff.mp hcond.1
  obtain ⟨hιeq, hrsx0, hrsi0⟩ := hinv.femp hemp
  have hbase := hinv.lsn hls
  have hebig : ∀ j, st.row_start_idx ≤ j → j + 1 < i + 1 →
      breakable (t.getD j ' ') = false := fun j hj1 hj2 => hbase j hj1 (by omega)
  have h_nsum : ((st.out_rows ++ [indentRow f st]).map rowWeight).sum
      = st.row_start_idx := by
    rw [List.map_append, List.sum_append, hinv.nsum]
    simp [rowWeight, nchars, indentRow]
  have h_flags : ∀ r ∈ st.out_rows ++ [indentRow f st], r.ends_with_newline = false := by
    intro r hr
    rcases List.mem_append.mp hr with hr | hr
    · exact hinv.flags r hr
    · rw [List.mem_singleton.mp hr]; rfl
  have h_hts : ∀ r ∈ st.out_rows ++ [indentRow f st],
      r.y_max - r.y_min = f.row_height := by
    intro r hr
    rcases List.mem_append.mp hr with hr | hr
    · exact hinv.hts r hr
    · rw [List.mem_singleton.mp hr]
      show st.cursor_y + f.row_height - st.cursor_y = f.row_height
      ring
  have h_good : ∀ k, k < (st.out_rows ++ [indentRow f st]).length →
      GoodRow t w (st.out_rows ++ [indentRow f st]) k := by
    intro k hk
    rw [hemp] at hk ⊢
    simp only [List.nil_append, List.length_cons, List.length_nil] at hk
    have hk0 : k = 0 := by omega
    subst hk0
    left
    simp [rowWidth, lastOff, headOff, indentRow]
    linarith
  have h_dnn : (0 : ℚ) ≤ 0 + full.getD st.row_start_idx 0 - st.row_start_x := by
    rw [hrsi0, hrsx0, h0]
    norm_num
  have h_hne : (0 : ℚ) + full.getD st.row_start_idx 0 - st.row_start_x = 0 := by
    rw [hrsi0, hrsx0, h0]
    norm_num
  have h_hhead : headOff ((st.out_rows ++ [indentRow f st]).headD default) = ι := by
    rw [hemp]
    simp only [List.nil_append, List.headD_cons]
    show (indentRow f st).x_offsets.headD 0 = ι
    simp [indentRow, hιeq]
  have h_htail : ∀ k, 1 ≤ k → k < (st.out_rows ++ [indentRow f st]).length →
      headOff ((st.out_rows ++ [indentRow f st]).getD k default) = 0 := by
    intro k hk1 hk2
    rw [hemp] at hk2
    simp at hk2
    omega
  by_cases hbr : breakable (t.getD i ' ') = true
  · rw [if_pos hbr]
    refine ⟨Nat.le_succ_of_le hinv.rs_le, hinv.rs_lt, h_nsum, h_flags, h_hts, h_good,
      ?_, ?_, fun _ => hebig, h_dnn, ?_, fun _ => h_hne, fun _ => h_hhead, h_htail⟩
    · intro ls hls2
      have hlsi : ls = i := by simpa using hls2.symm
      subst hlsi
      exact ⟨hinv.rs_le, Nat.lt_succ_self ls, fun j hj1 hj2 => by omega,
        Or.inr fun j hj1 hj2 => hbase j hj1 (by omega)⟩
    · intro hcontra
      simp at hcontra
    · intro hcontra
      simp [indentBreak] at hcontra
  · rw [if_neg hbr]
    have hbf : breakable (t.getD i ' ') = false := by simpa using hbr
    refine ⟨Nat.le_succ_of_le hinv.rs_le, hinv.rs_lt, h_nsum, h_flags, h_hts, h_good,
      ?_, ?_, fun _ => hebig, h_dnn, ?_, fun _ => h_hne, fun _ => h_hhead, h_htail⟩
    · intro ls hls2
      simp [indentBreak, hls] at hls2
    · intro _ j hj1 hj2
      rcases Nat.lt_succ_iff_lt_or_eq.mp hj2 with hj | hj
      · exact hbase j hj1 hj
      · rw [hj]; exact hbf
    · intro hcontra
      simp [indentBreak] at hcontra

lemma pinv_step_emit (f : Font) (t : List Char) (full : List ℚ) (w ι : ℚ)
    (h0 : full.getD 0 0 = 0) (hlen : full.length = t.length + 1)
    (i : ℕ) (hi : i < t.length) (st : ParaState) (hinv : PInv f t full w ι i st)
    (hov : w < st.indent + full.getD (i + 1) 0 - st.row_start_x)
    (ls : ℕ) (hls : st.last_space = some ls) :
    PInv f t full w ι (i + 1)
      (paraStep f full w i (full.getD (i + 1) 0) (t.getD i ' ') st) := by
  rw [paraStep_emit f full w i _ _ st ls hov hls]
  obtain ⟨hrs_ls, hls_i, hafter, hD⟩ := hinv.lsp ls hls
  have h2 : ls + 2 ≤ full.length := by rw [hlen]; omega
  have hrw := emitRow_width f full st ls hrs_ls h2
  have hrn := emitRow_nchars f full st ls hrs_ls h2
  have hrh := emitRow_headOff f full st ls hrs_ls h2
  have hrwt := emitRow_weight f full st ls hrs_ls h2
  have h_rsle : ls + 1 ≤ i + 1 := by omega
  have h_rslt : ls + 1 < t.length := by omega
  have h_nsum : ((st.out_rows ++ [emitRow f full st ls]).map rowWeight).sum
      = ls + 1 := by
    rw [List.map_append, List.sum_append, hinv.nsum]
    simp only [List.map_cons, List.map_nil, List.sum_cons, List.sum_nil, hrwt]
    omega
  have h_flags : ∀ r ∈ st.out_rows ++ [emitRow f full st ls],
      r.ends_with_newline = false := by
    intro r hr
    rcases List.mem_append.mp hr with hr | hr
    · exact hinv.flags r hr
    · rw [List.mem_singleton.mp hr]; rfl
  have h_hts : ∀ r ∈ st.out_rows ++ [emitRow f full st ls],
      r.y_max - r.y_min = f.row_height := by
    intro r hr
    rcases List.mem_append.mp hr with hr | hr
    · exact hinv.hts r hr
    · rw [List.mem_singleton.mp hr]
      show st.cursor_y + f.row_height - st.cursor_y = f.row_height
      ring
  have h_good : ∀ k, k < (st.out_rows ++ [emitRow f full st ls]).length →
      GoodRow t w (st.out_rows ++ [emitRow f full st ls]) k := by
    intro k hk
    rw [List.length_append, List.length_cons, List.length_nil] at hk
    rcases Nat.lt_succ_iff_lt_or_eq.mp hk with hklt | hkeq
    · exact GoodRow_append_of_lt t w st.out_rows [emitRow f full st ls] k hklt
        (hinv.good k hklt)
    · subst hkeq
      unfold GoodRow
      rw [rowStart_append_of_le st.out_rows _ _ (le_refl _),
        getD_append_right_self]
      unfold rowStart
      rw [List.take_length, hinv.nsum]
      simp only [List.getD_cons_zero]
      rcases hD with hDl | hDr
      · left
        rw [hrw]
        exact hDl
      · right
        intro j hj1 hj2
        rw [hrn] at hj2
        exact hDr j hj1 (by omega)
  have h_lsbase : ∀ j, ls + 1 ≤ j → j < i → breakable (t.getD j ' ') = false :=
    fun j hj1 hj2 => hafter j (by omega) hj2
  have h_ebig : ∀ j, ls + 1 ≤ j → j + 1 < i + 1 → breakable (t.getD j ' ') = false :=
    fun j hj1 hj2 => hafter j (by omega) (by omega)
  have h_dnn : (0 : ℚ) ≤ st.indent + full.getD (ls + 1) 0 -
      (st.indent + full.getD (ls + 1) 0) := by linarith
  have h_hne : st.indent + full.getD (ls + 1) 0 -
      (st.indent + full.getD (ls + 1) 0) = 0 := by ring
  have h_hhead : headOff ((st.out_rows ++ [emitRow f full st ls]).headD default)
      = ι := by
    cases hold : st.out_rows with
    | nil =>
        obtain ⟨hιeq, hrsx0, hrsi0⟩ := hinv.femp hold
        simp only [hold, List.nil_append, List.headD_cons]
        rw [hrh, hιeq, hrsx0, hrsi0, h0]
        ring
    | cons r rest =>
        simp only [List.cons_append, List.headD_cons]
        have := hinv.hhead (by rw [hold]; exact List.cons_ne_nil r rest)
        rw [hold] at this
        simpa using this
  have h_htail : ∀ k, 1 ≤ k → k < (st.out_rows ++ [emitRow f full st ls]).length →
      headOff ((st.out_rows ++ [emitRow f full st ls]).getD k default) = 0 := by
    intro k hk1 hk2
    rw [List.length_append, List.length_cons, List.length_nil] at hk2
    rcases Nat.lt_succ_iff_lt_or_eq.mp hk2 with hklt | hkeq
    · rw [getD_append_of_lt _ _ _ _ hklt]
      exact hinv.htail k hk1 hklt
    · subst hkeq
      rw [getD_append_right_self]
      simp only [List.getD_cons_zero]
      have hold : st.out_rows ≠ [] := by
        apply List.ne_nil_of_length_pos
        omega
      rw [hrh]
      exact hinv.hne hold
  by_cases hbr : breakable (t.getD i ' ') = true
  · rw [if_pos hbr]
    refine ⟨h_rsle, h_rslt, h_nsum, h_flags, h_hts, h_good, ?_, ?_,
      fun _ => h_ebig, h_dnn, ?_, fun _ => h_hne, fun _ => h_hhead, h_htail⟩
    · intro ls2 hls2
      have hlsi : ls2 = i := by simpa using hls2.symm
      subst hlsi
      exact ⟨by show ls + 1 ≤ ls2; omega, Nat.lt_succ_self ls2,
        fun j hj1 hj2 => by omega, Or.inr h_lsbase⟩
    · intro hcontra
      simp at hcontra
    · intro hcontra
      simp [emitBreak] at hcontra
  · rw [if_neg hbr]
    have hbf : breakable (t.getD i ' ') = false := by simpa using hbr
    refine ⟨h_rsle, h_rslt, h_nsum, h_flags, h_hts, h_good, ?_, ?_,
      fun _ => h_ebig, h_dnn, ?_, fun _ => h_hne, fun _ => h_hhead, h_htail⟩
    · intro ls2 hls2
      simp [emitBreak] at hls2
    · intro _ j hj1 hj2
      rcases Nat.lt_succ_iff_lt_or_eq.mp hj2 with hj | hj
      · exact h_lsbase j hj1 hj
      · rw [hj]; exact hbf
    · intro hcontra
      simp [emitBreak] at hcontra

lemma paraStep_pinv (f : Font) (t : List Char) (full : List ℚ) (w ι : ℚ)
    (hw : 0 < w) (h0 : full.getD 0 0 = 0) (hlen : full.length = t.length + 1)
    (i : ℕ) (hi : i < t.length) (st : ParaState) (hinv : PInv f t full w ι i st) :
    PInv f t full w ι (i + 1)
      (paraStep f full w i (full.getD (i + 1) 0) (t.getD i ' ') st) := by
  by_cases hov : w < st.indent + full.getD (i + 1) 0 - st.row_start_x
  · cases hls : st.last_space with
    | some ls => exact pinv_step_emit f t full w ι h0 hlen i hi st hinv hov ls hls
    | none =>
        by_cases hcond : st.out_rows.isEmpty ∧ 0 < st.indent
        · exact pinv_step_indent f t full w ι hw h0 i st hinv hov hls hcond
        · exact pinv_step_stuck f t full w ι i st hinv hov hls hcond
  · exact pinv_step_no_overflow f t full w ι i st hinv hov

lemma paraLoop_pinv (f : Font) (t : List Char) (full : List ℚ) (w ι : ℚ)
    (hw : 0 < w) (h0 : full.getD 0 0 = 0) (hlen : full.length = t.length + 1) :
    ∀ (rest : List (ℚ × Char)) (i : ℕ) (st : ParaState),
      PInv f t full w ι i st →
      i + rest.length = t.length →
      (∀ m, m < rest.length →
        rest.getD m (0, ' ') = (full.getD (i + m + 1) 0, t.getD (i + m) ' ')) →
      PInv f t full w ι t.length (paraLoop f full w i rest st) := by
  intro rest
  induction rest with
  | nil =>
      intro i st hinv hlen2 _
      have hi : i = t.length := by simpa using hlen2
      subst hi
      exact hinv
  | cons p rest ih =>
      intro i st hinv hlen2 helem
      obtain ⟨x, chr⟩ := p
      have hi : i < t.length := by
        simp only [List.length_cons] at hlen2
        omega
      have h00 := helem 0 (by simp)
      simp only [List.getD_cons_zero, Nat.add_zero] at h00
      have hx : x = full.getD (i + 1) 0 := congrArg Prod.fst h00
      have hc : chr = t.getD i ' ' := congrArg Prod.snd h00
      subst hx
      subst hc
      show PInv f t full w ι t.length
        (paraLoop f full w (i + 1) rest
          (paraStep f full w i (full.getD (i + 1) 0) (t.getD i ' ') st))
      apply ih (i + 1) _ (paraStep_pinv f t full w ι hw h0 hlen i hi st hinv)
      · simp only [List.length_cons] at hlen2
        omega
      · intro m hm
        have h2 := helem (m + 1) (by simpa using Nat.succ_lt_succ hm)
        simp only [List.getD_cons_succ] at h2
        rw [h2]
        congr 2 <;> omega

lemma pinv_init (f : Font) (t : List Char) (full : List ℚ) (w ι : ℚ)
    (hw : 0 < w) (hι : 0 ≤ ι) (h0 : full.getD 0 0 = 0) (htne : t ≠ []) :
    PInv f t full w ι 0 ⟨ι, 0, 0, 0, none, []⟩ := by
  refine ⟨le_refl 0, List.length_pos.mpr htne, rfl, ?_, ?_, ?_, ?_, ?_, ?_, ?_,
    ?_, ?_, ?_, ?_⟩
  · intro r hr; simp at hr
  · intro r hr; simp at hr
  · intro k hk; simp at hk
  · intro ls hls; simp at hls
  · intro _ j hj1 hj2; omega
  · intro hgt j hj1 hj2; omega
  · show (0 : ℚ) ≤ ι + full.getD 0 0 - 0
    rw [h0]
    linarith
  · intro _; exact ⟨rfl, rfl, rfl⟩
  · intro hcontra; exact absurd rfl hcontra
  · intro hcontra; exact absurd rfl hcontra
  · intro k hk1 hk2; simp at hk2

lemma zip_length_eq (f : Font) (t : List Char) :
    (((f.layout_single_row_fragment t).drop 1).zip t).length = t.length := by
  rw [List.length_zip, List.length_drop, layout_single_row_fragment_length]
  omega

lemma zip_elem (f : Font) (t : List Char) (m : ℕ)
    (hm : m < (((f.layout_single_row_fragment t).drop 1).zip t).length) :
    (((f.layout_single_row_fragment t).drop 1).zip t).getD m (0, ' ')
      = ((f.layout_single_row_fragment t).getD (m + 1) 0, t.getD m ' ') := by
  have hm2 : m < t.length := by rw [zip_length_eq] at hm; exact hm
  have hm3 : m < ((f.layout_single_row_fragment t).drop 1).length := by
    rw [List.length_drop, layout_single_row_fragment_length]
    omega
  rw [List.getD_eq_getElem?_getD, List.getElem?_eq_getElem hm, List.getElem_zip]
  simp only [Option.getD_some]
  have h1 : ((f.layout_single_row_fragment t).drop 1)[m] =
      (f.layout_single_row_fragment t).getD (m + 1) 0 := by
    have ha : ((f.layout_single_row_fragment t).drop 1)[m] =
        ((f.layout_single_row_fragment t).drop 1).getD m 0 := by
      rw [List.getD_eq_getElem?_getD, List.getElem?_eq_getElem hm3]
      rfl
    rw [ha, getD_drop, Nat.add_comm 1 m]
  have h2 : t[m] = t.getD m ' ' := by
    rw [List.getD_eq_getElem?_getD, List.getElem?_eq_getElem hm2]
    rfl
  rw [h1, h2]

lemma layout_paragraph_eq_of_ne (f : Font) (t : List Char) (ι w : ℚ)
    (htne : t.isEmpty = false) :
    f.layout_paragraph_max_width t ι w =
      (if (paraLoop f (f.layout_single_row_fragment t) w 0
            (((f.layout_single_row_fragment t).drop 1).zip t)
            ⟨ι, 0, 0, 0, none, []⟩).row_start_idx + 1
          < (f.layout_single_row_fragment t).length
       then (paraLoop f (f.layout_single_row_fragment t) w 0
              (((f.layout_single_row_fragment t).drop 1).zip t)
              ⟨ι, 0, 0, 0, none, []⟩).out_rows ++
            [finalRow f (f.layout_single_row_fragment t)
              (paraLoop f (f.layout_single_row_fragment t) w 0
                (((f.layout_single_row_fragment t).drop 1).zip t)
                ⟨ι, 0, 0, 0, none, []⟩)]
       else (paraLoop f (f.layout_single_row_fragment t) w 0
              (((f.layout_single_row_fragment t).drop 1).zip t)
              ⟨ι, 0, 0, 0, none, []⟩).out_rows) := by
  unfold Font.layout_paragraph_max_width
  rw [if_neg (by simp [htne])]

lemma layout_paragraph_spec (f : Font) (t : List Char) (w ι : ℚ)
    (hw : 0 < w) (hι : 0 ≤ ι) :
    ParaOut f t w ι (f.layout_paragraph_max_width t ι w) := by
  by_cases hemp : t.isEmpty = true
  · have ht : t = [] := List.isEmpty_iff.mp hemp
    subst ht
    unfold Font.layout_paragraph_max_width
    rw [if_pos (show ([] : List Char).isEmpty = true from rfl)]
    refine ⟨by simp, by simp [rowWeight, nchars], ?_, ?_, ?_, ?_, ?_⟩
    · intro r hr
      rw [List.mem_singleton.mp hr]
    · intro r hr
      rw [List.mem_singleton.mp hr]
      show f.row_height - 0 = f.row_height
      ring
    · intro k hk
      simp only [List.length_cons, List.length_nil] at hk
      have hk0 : k = 0 := by omega
      subst hk0
      left
      simp [rowWidth, lastOff, headOff]
      linarith
    · simp [headOff]
    · intro k hk1 hk2
      simp at hk2
      omega
  · have htne : t ≠ [] := by
      intro hcontra
      subst hcontra
      exact hemp rfl
    have hlen : (f.layout_single_row_fragment t).length = t.length + 1 :=
      layout_single_row_fragment_length f t
    have h0 : (f.layout_single_row_fragment t).getD 0 0 = 0 :=
      layout_single_row_fragment_head f t
    set F := f.layout_single_row_fragment t with hF
    set ST := paraLoop f F w 0 ((F.drop 1).zip t) ⟨ι, 0, 0, 0, none, []⟩ with hST
    have hfin : PInv f t F w ι t.length ST := by
      rw [hST]
      apply paraLoop_pinv f t F w ι hw h0 hlen _ 0 _
        (pinv_init f t F w ι hw hι h0 htne)
      · rw [hF, zip_length_eq]
        omega
      · intro m hm
        rw [hF] at hm ⊢
        have hz := zip_elem f t m hm
        simpa using hz
    have hcond : ST.row_start_idx + 1 < F.length := by
      rw [hlen]
      have := hfin.rs_lt
      omega
    have heq : f.layout_paragraph_max_width t ι w = ST.out_rows ++ [finalRow f F ST] := by
      rw [layout_paragraph_eq_of_ne f t ι w (by simpa using hemp)]
      rw [← hF, ← hST, if_pos hcond]
    rw [heq]
    have hrslt := hfin.rs_lt
    have hfw := finalRow_width f F ST (by omega)
    have hfn := finalRow_nchars f F ST (by omega)
    have hfh := finalRow_headOff f F ST (by omega)
    have hfwt := finalRow_weight f F ST (by omega)
    refine ⟨by simp, ?_, ?_, ?_, ?_, ?_, ?_⟩
    · rw [List.map_append, List.sum_append, hfin.nsum]
      simp only [List.map_cons, List.map_nil, List.sum_cons, List.sum_nil, hfwt]
      omega
    · intro r hr
      rcases List.mem_append.mp hr with hr | hr
      · exact hfin.flags r hr
      · rw [List.mem_singleton.mp hr]; rfl
    · intro r hr
      rcases List.mem_append.mp hr with hr | hr
      · exact hfin.hts r hr
      · rw [List.mem_singleton.mp hr]
        show ST.cursor_y + f.row_height - ST.cursor_y = f.row_height
        ring
    · intro k hk
      rw [List.length_append, List.length_cons, List.length_nil] at hk
      rcases Nat.lt_succ_iff_lt_or_eq.mp hk with hklt | hkeq
      · exact GoodRow_append_of_lt t w ST.out_rows [finalRow f F ST] k hklt
          (hfin.good k hklt)
      · subst hkeq
        unfold GoodRow
        rw [rowStart_append_of_le ST.out_rows _ _ (le_refl _),
          getD_append_right_self]
        unfold rowStart
        rw [List.take_length, hfin.nsum]
        simp only [List.getD_cons_zero]
        by_cases hwide : rowWidth (finalRow f F ST) ≤ w
        · left; exact hwide
        · right
          push_neg at hwide
          have hql : F.length - 1 = t.length := by omega
          have hbig : w < wdiff F ST.row_start_idx t.length := by
            rw [← hql, ← hfw]
            exact hwide
          have hnb := hfin.ebig hbig
          intro j hj1 hj2
          rw [hfn] at hj2
          exact hnb j hj1 (by omega)
    · cases hold : ST.out_rows with
      | nil =>
          obtain ⟨hιeq, hrsx0, hrsi0⟩ := hfin.femp hold
          simp only [hold, List.nil_append, List.headD_cons]
          rw [hfh, hιeq, hrsx0, hrsi0, h0]
          ring
      | cons r rest =>
          simp only [List.cons_append, List.headD_cons]
          have hh := hfin.hhead (by rw [hold]; exact List.cons_ne_nil r rest)
          rw [hold] at hh
          simpa using hh
    · intro k hk1 hk2
      rw [List.length_append, List.length_cons, List.length_nil] at hk2
      rcases Nat.lt_succ_iff_lt_or_eq.mp hk2 with hklt | hkeq
      · rw [getD_append_of_lt _ _ _ _ hklt]
        exact hfin.htail k hk1 hklt
      · subst hkeq
        rw [getD_append_right_self]
        simp only [List.getD_cons_zero]
        have hold : ST.out_rows ≠ [] := by
          apply List.ne_nil_of_length_pos
          omega
        rw [hfh]
        exact hfin.hne hold

lemma getD_map_lt {α β : Type} (g : α → β) (l : List α) (k : ℕ) (hk : k < l.length)
    (da : α) (db : β) : (l.map g).getD k db = g (l.getD k da) := by
  rw [List.getD_eq_getElem?_getD, List.getElem?_map, List.getElem?_eq_getElem hk,
    List.getD_eq_getElem?_getD, List.getElem?_eq_getElem hk]
  rfl

lemma setLast_length (b : Bool) : ∀ (l : List Row),
    (setLastNewlineFlag l b).length = l.length := by
  intro l
  induction l with
  | nil => rfl
  | cons r tl ih =>
      cases tl with
      | nil => rfl
      | cons r2 rest =>
          show (r :: setLastNewlineFlag (r2 :: rest) b).length = _
          simp only [List.length_cons]
          simpa using ih

lemma setLast_getD (b : Bool) : ∀ (l : List Row) (k : ℕ), k < l.length →
    (setLastNewlineFlag l b).getD k default =
      { l.getD k default with ends_with_newline :=
          if k = l.length - 1 then b
          else (l.getD k default).ends_with_newline } := by
  intro l
  induction l with
  | nil => intro k hk; simp at hk
  | cons r tl ih =>
      intro k hk
      cases tl with
      | nil =>
          simp only [List.length_cons, List.length_nil] at hk
          have hk0 : k = 0 := by omega
          subst hk0
          rfl
      | cons r2 rest =>
          show (r :: setLastNewlineFlag (r2 :: rest) b).getD k default = _
          cases k with
          | zero =>
              simp only [List.getD_cons_zero]
              rw [if_neg (by simp)]
          | succ k2 =>
              simp only [List.getD_cons_succ]
              rw [ih k2 (by simpa using hk)]
              simp only [List.length_cons]
              by_cases hk2 : k2 = rest.length + 1 - 1
              · rw [if_pos hk2, if_pos (by omega)]
              · rw [if_neg hk2, if_neg (by omega)]

lemma getD_append_right_add {α : Type} (l1 l2 : List α) (d : α) (m : ℕ) :
    (l1 ++ l2).getD (l1.length + m) d = l2.getD m d := by
  rw [List.getD_eq_getElem?_getD, List.getD_eq_getElem?_getD,
    List.getElem?_append_right (by omega : l1.length ≤ l1.length + m)]
  rw [Nat.add_sub_cancel_left]

lemma rowStart_append_add (l1 l2 : List Row) (m : ℕ) :
    rowStart (l1 ++ l2) (l1.length + m) = (l1.map rowWeight).sum + rowStart l2 m := by
  unfold rowStart
  rw [List.take_append, List.map_append, List.sum_append]

lemma rowStart_eq_range (rows : List Row) :
    ∀ (m : ℕ), m ≤ rows.length →
      rowStart rows m = ∑ j ∈ Finset.range m, rowWeight (rows.getD j default) := by
  intro m
  induction m with
  | zero => intro _; rfl
  | succ m2 ih =>
      intro hm
      rw [rowStart_succ rows m2 (by omega), Finset.sum_range_succ, ih (by omega)]

lemma pr2_length (l : List Row) (b : Bool) (cy : ℚ) :
    (((setLastNewlineFlag l b).map (shiftRow cy))).length = l.length := by
  rw [List.length_map, setLast_length]

lemma pr2_getD (l : List Row) (b : Bool) (cy : ℚ) (k : ℕ) (hk : k < l.length) :
    ((setLastNewlineFlag l b).map (shiftRow cy)).getD k default =
      { x_offsets := (l.getD k default).x_offsets
        y_min := (l.getD k default).y_min + cy
        y_max := (l.getD k default).y_max + cy
        ends_with_newline :=
          if k = l.length - 1 then b else (l.getD k default).ends_with_newline } := by
  rw [getD_map_lt (shiftRow cy) _ k (by rw [setLast_length]; exact hk) default default,
    setLast_getD b l k hk]
  rfl

lemma pr2_weight_sum (b : Bool) (cy : ℚ) :
    ∀ (l : List Row), (∀ r ∈ l, r.ends_with_newline = false) → l ≠ [] →
      (((setLastNewlineFlag l b).map (shiftRow cy)).map rowWeight).sum
        = (l.map rowWeight).sum + (if b then 1 else 0) := by
  intro l
  induction l with
  | nil => intro _ hne; exact absurd rfl hne
  | cons r tl ih =>
      intro hflags _
      cases tl with
      | nil =>
          show rowWeight (shiftRow cy { r with ends_with_newline := b }) + 0 = _
          have hfr : r.ends_with_newline = false := hflags r (by simp)
          simp [rowWeight, nchars, shiftRow, hfr]
      | cons r2 rest =>
          have hsl : setLastNewlineFlag (r :: r2 :: rest) b
              = r :: setLastNewlineFlag (r2 :: rest) b := rfl
          rw [hsl, List.map_cons, List.map_cons, List.sum_cons,
            ih (fun r3 hr3 => hflags r3 (by simp [hr3])) (List.cons_ne_nil r2 rest),
            List.map_cons, List.sum_cons]
          have hwr : rowWeight (shiftRow cy r) = rowWeight r := rfl
          rw [hwr]
          simp only [List.map_cons, List.sum_cons]
          ring

lemma pr2_flag_count (b : Bool) (cy : ℚ) :
    ∀ (l : List Row), (∀ r ∈ l, r.ends_with_newline = false) → l ≠ [] →
      ((setLastNewlineFlag l b).map (shiftRow cy)).countP
          (fun r => r.ends_with_newline) = (if b then 1 else 0) := by
  intro l
  induction l with
  | nil => intro _ hne; exact absurd rfl hne
  | cons r tl ih =>
      intro hflags _
      cases tl with
      | nil =>
          show List.countP (fun r2 => r2.ends_with_newline)
            [shiftRow cy { r with ends_with_newline := b }] = _
          simp [List.countP_cons, shiftRow]
      | cons r2 rest =>
          show List.countP (fun r3 => r3.ends_with_newline)
            (shiftRow cy r :: (setLastNewlineFlag (r2 :: rest) b).map (shiftRow cy)) = _
          rw [List.countP_cons,
            ih (fun r3 hr3 => hflags r3 (by simp [hr3])) (List.cons_ne_nil r2 rest)]
          have hfr : r.ends_with_newline = false := hflags r (by simp)
          simp [shiftRow, hfr]

lemma pr2_rowStart (l : List Row) (b : Bool) (cy : ℚ)
    (hflags : ∀ r ∈ l, r.ends_with_newline = false) (m : ℕ) (hm : m < l.length) :
    rowStart ((setLastNewlineFlag l b).map (shiftRow cy)) m = rowStart l m := by
  rw [rowStart_eq_range _ m (by rw [pr2_length]; omega),
    rowStart_eq_range l m (by omega)]
  apply Finset.sum_congr rfl
  intro j hj
  have hjm : j < m := Finset.mem_range.mp hj
  have hjl : j < l.length := by omega
  rw [pr2_getD l b cy j hjl]
  have hjne : ¬ j = l.length - 1 := by omega
  rw [if_neg hjne]
  rfl

lemma getD_mem {α : Type} (l : List α) (k : ℕ) (d : α) (hk : k < l.length) :
    l.getD k d ∈ l := by
  rw [List.getD_eq_getElem?_getD, List.getElem?_eq_getElem hk]
  exact List.getElem_mem hk

lemma exists_getD_of_mem {α : Type} (l : List α) (r d : α) (hr : r ∈ l) :
    ∃ k, k < l.length ∧ l.getD k d = r := by
  obtain ⟨k, hk, he⟩ := List.getElem_of_mem hr
  refine ⟨k, hk, ?_⟩
  rw [List.getD_eq_getElem?_getD, List.getElem?_eq_getElem hk]
  exact he

lemma rowStart_add_nchars_le (rows : List Row) (m : ℕ) (hm : m < rows.length) :
    rowStart rows m + nchars (rows.getD m default) ≤ (rows.map rowWeight).sum := by
  have h1 := rowStart_succ rows m hm
  have h2 := rowStart_le_sum rows (m + 1)
  unfold rowWeight at h1
  omega

lemma para_count_zero (rem : List Char) :
    ((rem.takeWhile (fun c2 => c2 != Char.ofNat 10)).count (Char.ofNat 10)) = 0 := by
  rw [List.count_eq_zero]
  intro hmem
  have hp := List.mem_takeWhile_imp hmem
  simp at hp

lemma para_stop (rem : List Char)
    (h : ((rem.takeWhile (fun c2 => c2 != Char.ofNat 10)).length) < rem.length) :
    rem.getD ((rem.takeWhile (fun c2 => c2 != Char.ofNat 10)).length) ' '
      = Char.ofNat 10 := by
  have hs := takeWhile_stop (fun c2 => c2 != Char.ofNat 10) ' ' rem h
  simpa using hs

lemma count_split (rem : List Char)
    (h : ((rem.takeWhile (fun c2 => c2 != Char.ofNat 10)).length) < rem.length) :
    rem.count (Char.ofNat 10)
      = (rem.drop (((rem.takeWhile (fun c2 => c2 != Char.ofNat 10)).length) + 1)).count
          (Char.ofNat 10) + 1 := by
  conv_lhs =>
    rw [← List.take_append_drop
      ((rem.takeWhile (fun c2 => c2 != Char.ofNat 10)).length) rem]
  rw [List.count_append]
  have h1 : (rem.take ((rem.takeWhile (fun c2 => c2 != Char.ofNat 10)).length)).count
      (Char.ofNat 10) = 0 := by
    rw [← takeWhile_eq_take_own]
    exact para_count_zero rem
  rw [h1, List.drop_eq_getElem_cons h, List.count_cons]
  have h2 : rem[(rem.takeWhile (fun c2 => c2 != Char.ofNat 10)).length]
      = Char.ofNat 10 := by
    have hp := para_stop rem h
    rw [List.getD_eq_getElem?_getD, List.getElem?_eq_getElem h] at hp
    simpa using hp
  simp [h2]

lemma mlOut_nil (f : Font) (w ι0 : ℚ) : MlOut f w ι0 [] [] := by
  refine ⟨fun h => absurd rfl h, rfl, rfl, ?_, ?_, fun h => absurd rfl h, ?_⟩
  · intro r hr; simp at hr
  · intro m hm; simp at hm
  · intro m hm1 hm2; simp at hm2

lemma mlLoop_cons (f : Font) (ι w : ℚ) (chr : Char) (rem1 : List Char)
    (cy : ℚ) (rows : List Row) :
    mlLoop f ι w (chr :: rem1) cy rows =
      mlLoop f ι w
        ((chr :: rem1).drop
          (((chr :: rem1).takeWhile (fun c2 => c2 != Char.ofNat 10)).length + 1))
        (((paraRows f w (if rows.isEmpty then ι else 0) cy (chr :: rem1)).getLastD
            default).y_max + f.row_height * (2 / 5))
        (rows ++ paraRows f w (if rows.isEmpty then ι else 0) cy (chr :: rem1)) := by
  rw [mlLoop]

lemma mlLoop_spec (f : Font) (ι w : ℚ) (hw : 0 < w) (hι : 0 ≤ ι) :
    ∀ (n : ℕ) (rem : List Char) (cy : ℚ) (acc : List Row), rem.length ≤ n →
      ∃ nr, (mlLoop f ι w rem cy acc).1 = acc ++ nr ∧
        MlOut f w (if acc.isEmpty then ι else 0) rem nr := by
  intro n
  induction n with
  | zero =>
      intro rem cy acc hn
      have hrem : rem = [] := List.eq_nil_of_length_eq_zero (by omega)
      subst hrem
      exact ⟨[], by simp [mlLoop], mlOut_nil f w _⟩
  | succ n2 ih =>
      intro rem cy acc hn
      cases rem with
      | nil => exact ⟨[], by simp [mlLoop], mlOut_nil f w _⟩
      | cons chr rem1 =>
          rw [mlLoop_cons]
          set P := (chr :: rem1).takeWhile (fun c2 => c2 != Char.ofNat 10) with hP
          set b := decide (P.length < (chr :: rem1).length) with hb
          set ind := (if acc.isEmpty then ι else (0 : ℚ)) with hind
          set PR := paraRows f w ind cy (chr :: rem1) with hPR
          have hind0 : 0 ≤ ind := by
            rw [hind]
            split
            · exact hι
            · exact le_refl 0
          set pr := f.layout_paragraph_max_width P ind w with hpr
          have hpo : ParaOut f P w ind pr := layout_paragraph_spec f P w ind hw hind0
          have hPRdef : PR = (setLastNewlineFlag pr b).map (shiftRow cy) := rfl
          have hLle : P.length ≤ (chr :: rem1).length := by
            rw [hP]
            exact takeWhile_length_le _ _
          have hPRlen : PR.length = pr.length := by
            rw [hPRdef]
            exact pr2_length pr b cy
          have hprpos : 0 < pr.length := List.length_pos.mpr hpo.ne
          have hPRne : PR ≠ [] := List.ne_nil_of_length_pos (by omega)
          have hPRgetD : ∀ k, k < pr.length → PR.getD k default =
              { x_offsets := (pr.getD k default).x_offsets
                y_min := (pr.getD k default).y_min + cy
                y_max := (pr.getD k default).y_max + cy
                ends_with_newline :=
                  if k = pr.length - 1 then b
                  else (pr.getD k default).ends_with_newline } := by
            intro k hk
            rw [hPRdef]
            exact pr2_getD pr b cy k hk
          have hWsum : (PR.map rowWeight).sum = P.length + (if b then 1 else 0) := by
            rw [hPRdef, pr2_weight_sum b cy pr hpo.flags hpo.ne, hpo.nsum]
          have hWcnt : PR.countP (fun r => r.ends_with_newline)
              = (if b then 1 else 0) := by
            rw [hPRdef]
            exact pr2_flag_count b cy pr hpo.flags hpo.ne
          have hPRstart : ∀ m, m < pr.length → rowStart PR m = rowStart pr m := by
            intro m hm
            rw [hPRdef]
            exact pr2_rowStart pr b cy hpo.flags m hm
          have hlen2 : ((chr :: rem1).drop (P.length + 1)).length ≤ n2 := by
            rw [List.length_drop]
            simp only [List.length_cons] at hn ⊢
            omega
          obtain ⟨nr2, heq2, hml2⟩ := ih ((chr :: rem1).drop (P.length + 1))
            (((PR.getLastD default).y_max + f.row_height * (2 / 5))) (acc ++ PR) hlen2
          have haccne : acc ++ PR ≠ [] :=
            fun hc => hPRne (List.append_eq_nil.mp hc).2
          rw [if_neg (fun hc => haccne (List.isEmpty_iff.mp hc))] at hml2
          have hnr2nil0 : (chr :: rem1).drop (P.length + 1) = [] → nr2 = [] := by
            intro hrem2nil
            rw [hrem2nil] at heq2
            simp only [mlLoop] at heq2
            exact (List.append_right_eq_self.mp heq2.symm)
          have hnr2nil : ¬ P.length < (chr :: rem1).length → nr2 = [] := by
            intro hNl
            exact hnr2nil0 (List.drop_eq_nil_of_le (by omega))
          refine ⟨PR ++ nr2, ?_, ?_, ?_, ?_, ?_, ?_, ?_, ?_⟩
          · rw [heq2, List.append_assoc]
          · intro _
            exact fun hc => hPRne (List.append_eq_nil.mp hc).1
          · rw [List.map_append, List.sum_append, hWsum, hml2.nsum, List.length_drop]
            by_cases hNl : P.length < (chr :: rem1).length
            · rw [hb] at *
              rw [if_pos (by exact decide_eq_true hNl)]
              omega
            · have hLeq : P.length = (chr :: rem1).length :=
                le_antisymm hLle (not_lt.mp hNl)
              rw [hb]
              rw [if_neg (by simpa using hNl)]
              omega
          · rw [List.countP_append, hWcnt, hml2.flagcnt]
            by_cases hNl : P.length < (chr :: rem1).length
            · rw [hb, if_pos (by exact decide_eq_true hNl)]
              have hcs := count_split (chr :: rem1) (by rw [← hP]; exact hNl)
              rw [← hP] at hcs
              omega
            · have hnil := hnr2nil hNl
              have hLeq : P.length = (chr :: rem1).length :=
                le_antisymm hLle (not_lt.mp hNl)
              have hPfull : P = chr :: rem1 := by
                rw [hP, takeWhile_eq_take_own]
                rw [← hP, hLeq]
                exact List.take_length _
              have hcnt0 : (chr :: rem1).count (Char.ofNat 10) = 0 := by
                rw [← hPfull, hP]
                exact para_count_zero (chr :: rem1)
              rw [hb, if_neg (by simpa using hNl), hcnt0]
              have hrem2nil : (chr :: rem1).drop (P.length + 1) = [] :=
                List.drop_eq_nil_of_le (by omega)
              rw [hrem2nil]
              rfl
          · intro r hr
            rcases List.mem_append.mp hr with hr | hr
            · obtain ⟨k, hk, hkr⟩ := exists_getD_of_mem PR r default hr
              rw [← hkr, hPRgetD k (by omega)]
              have hmem : pr.getD k default ∈ pr := getD_mem pr k default (by omega)
              have hh := hpo.hts _ hmem
              show (pr.getD k default).y_max + cy - ((pr.getD k default).y_min + cy)
                = f.row_height
              linarith
            · exact hml2.hts r hr
          · intro m hm
            rw [List.length_append] at hm
            rcases lt_or_ge m PR.length with hmlt | hmge
            · unfold GoodRow
              rw [rowStart_append_of_le _ _ _ hmlt.le, getD_append_of_lt _ _ _ _ hmlt,
                hPRstart m (by omega), hPRgetD m (by omega)]
              have hgm := hpo.good m (by omega)
              unfold GoodRow at hgm
              rcases hgm with hgl | hgr
              · left
                exact hgl
              · right
                intro j hj1 hj2
                have hble := rowStart_add_nchars_le pr m (by omega)
                rw [hpo.nsum] at hble
                have hjP : j < P.length := by
                  simp only [nchars] at hj2 hble
                  omega
                have heqc : P.getD j ' ' = (chr :: rem1).getD j ' ' := by
                  rw [hP]
                  exact takeWhile_getD _ ' ' (chr :: rem1) j (by rw [← hP]; exact hjP)
                rw [← heqc]
                exact hgr j hj1 hj2
            · by_cases hNl : P.length < (chr :: rem1).length
              · obtain ⟨m2, hm2⟩ := Nat.exists_eq_add_of_le hmge
                subst hm2
                have hm2lt : m2 < nr2.length := by omega
                unfold GoodRow
                rw [rowStart_append_add, getD_append_right_add]
                have hg2 := hml2.good m2 hm2lt
                unfold GoodRow at hg2
                rcases hg2 with hgl | hgr
                · left
                  exact hgl
                · right
                  intro j hj1 hj2
                  rw [hWsum, hb, if_pos (by exact decide_eq_true hNl)] at hj1 hj2
                  have hjb : P.length + 1 ≤ j := by omega
                  have hdg : ((chr :: rem1).drop (P.length + 1)).getD
                      (j - (P.length + 1)) ' ' = (chr :: rem1).getD j ' ' := by
                    rw [getD_drop]
                    congr 1
                    omega
                  rw [← hdg]
                  apply hgr (j - (P.length + 1)) (by omega) (by omega)
              · have hnil := hnr2nil hNl
                rw [hnil, List.length_nil] at hm
                exact absurd hm (by omega)
          · intro _
            cases hPRc : PR with
            | nil => exact absurd hPRc hPRne
            | cons r0 PRt =>
                simp only [hPRc, List.cons_append, List.headD_cons]
                have h0get : PR.getD 0 default = r0 := by rw [hPRc]; rfl
                have hh := hPRgetD 0 (by omega)
                rw [h0get] at hh
                rw [hh]
                show (pr.getD 0 default).x_offsets.headD 0 = ind
                have hhd := hpo.hhead
                rw [headD_eq_getD] at hhd
                exact hhd
          · intro m hm1 hm2
            rw [List.length_append] at hm2
            rcases lt_or_ge m PR.length with hmlt | hmge
            · rw [getD_append_of_lt _ _ _ _ hmlt, hPRgetD m (by omega)]
              have hht := hpo.htail m hm1 (by omega)
              show (pr.getD m default).x_offsets.headD 0 = 0
              exact hht
            · obtain ⟨m2, hm2e⟩ := Nat.exists_eq_add_of_le hmge
              subst hm2e
              rw [getD_append_right_add]
              have hm2lt : m2 < nr2.length := by omega
              have hrem2ne : (chr :: rem1).drop (P.length + 1) ≠ [] := by
                intro hc
                rw [hnr2nil0 hc] at hm2lt
                simp at hm2lt
              cases m2 with
              | zero =>
                  have hhd := hml2.hhead hrem2ne
                  rw [headD_eq_getD] at hhd
                  exact hhd
              | succ m3 =>
                  exact hml2.htail (m3 + 1) (by omega) hm2lt

lemma paraStep_hts (f : Font) (full : List ℚ) (w : ℚ) (i : ℕ) (x : ℚ) (chr : Char)
    (st : ParaState) (h : ∀ r ∈ st.out_rows, r.y_max - r.y_min = f.row_height) :
    ∀ r ∈ (paraStep f full w i x chr st).out_rows,
      r.y_max - r.y_min = f.row_height := by
  have hout : (paraStep f full w i x chr st).out_rows = st.out_rows ∨
      (∃ row, (row.y_max - row.y_min = f.row_height) ∧
        (paraStep f full w i x chr st).out_rows = st.out_rows ++ [row]) := by
    unfold paraStep
    by_cases hov : w < st.indent + x - st.row_start_x
    · cases hls : st.last_space with
      | some ls =>
          right
          refine ⟨emitRow f full st ls, ?_, ?_⟩
          · show st.cursor_y + f.row_height - st.cursor_y = f.row_height
            ring
          · simp only [if_pos hov, hls]
            by_cases hbr : breakable chr = true <;> simp [hbr, emitBreak]
      | none =>
          by_cases hcond : st.out_rows.isEmpty ∧ 0 < st.indent
          · right
            refine ⟨indentRow f st, ?_, ?_⟩
            · show st.cursor_y + f.row_height - st.cursor_y = f.row_height
              ring
            · simp only [if_pos hov, hls, if_pos hcond]
              by_cases hbr : breakable chr = true <;> simp [hbr, indentBreak]
          · left
            simp only [if_pos hov, hls, if_neg hcond]
            by_cases hbr : breakable chr = true <;> simp [hbr]
    · left
      simp only [if_neg hov]
      by_cases hbr : breakable chr = true <;> simp [hbr]
  rcases hout with hout | ⟨row, hrow, hout⟩
  · rw [hout]; exact h
  · rw [hout]
    intro r hr
    rcases List.mem_append.mp hr with hr | hr
    · exact h r hr
    · rw [List.mem_singleton.mp hr]; exact hrow

lemma paraLoop_hts (f : Font) (full : List ℚ) (w : ℚ) :
    ∀ (rest : List (ℚ × Char)) (i : ℕ) (st : ParaState),
      (∀ r ∈ st.out_rows, r.y_max - r.y_min = f.row_height) →
      ∀ r ∈ (paraLoop f full w i rest st).out_rows,
        r.y_max - r.y_min = f.row_height := by
  intro rest
  induction rest with
  | nil => intro i st h; exact h
  | cons p rest2 ih =>
      intro i st h
      obtain ⟨x, chr⟩ := p
      exact ih (i + 1) _ (paraStep_hts f full w i x chr st h)

lemma layout_paragraph_hts (f : Font) (t : List Char) (ι w : ℚ) :
    ∀ r ∈ f.layout_paragraph_max_width t ι w, r.y_max - r.y_min = f.row_height := by
  by_cases hemp : t.isEmpty = true
  · have ht : t = [] := List.isEmpty_iff.mp hemp
    subst ht
    unfold Font.layout_paragraph_max_width
    rw [if_pos (show ([] : List Char).isEmpty = true from rfl)]
    intro r hr
    rw [List.mem_singleton.mp hr]
    show f.row_height - 0 = f.row_height
    ring
  · rw [layout_paragraph_eq_of_ne f t ι w (by simpa using hemp)]
    have hloop := paraLoop_hts f (f.layout_single_row_fragment t) w
      (((f.layout_single_row_fragment t).drop 1).zip t) 0
      ⟨ι, 0, 0, 0, none, []⟩ (by intro r hr; simp at hr)
    split
    · intro r hr
      rcases List.mem_append.mp hr with hr | hr
      · exact hloop r hr
      · rw [List.mem_singleton.mp hr]
        simp only [finalRow]
        ring
    · exact hloop

lemma paraRows_hts (f : Font) (w ind cy : ℚ) (rem : List Char) :
    ∀ r ∈ paraRows f w ind cy rem, r.y_max - r.y_min = f.row_height := by
  intro r hr
  obtain ⟨k, hk, hkr⟩ := exists_getD_of_mem _ r default hr
  have hklen : k < (f.layout_paragraph_max_width
      (rem.takeWhile (fun c2 => c2 != Char.ofNat 10)) ind w).length := by
    have hl : (paraRows f w ind cy rem).length =
        (f.layout_paragraph_max_width
          (rem.takeWhile (fun c2 => c2 != Char.ofNat 10)) ind w).length :=
      pr2_length _ _ _
    omega
  have hgd := pr2_getD (f.layout_paragraph_max_width
      (rem.takeWhile (fun c2 => c2 != Char.ofNat 10)) ind w)
    (decide ((rem.takeWhile (fun c2 => c2 != Char.ofNat 10)).length < rem.length))
    cy k hklen
  have hpr : paraRows f w ind cy rem =
      (setLastNewlineFlag (f.layout_paragraph_max_width
        (rem.takeWhile (fun c2 => c2 != Char.ofNat 10)) ind w)
        (decide ((rem.takeWhile (fun c2 => c2 != Char.ofNat 10)).length
          < rem.length))).map (shiftRow cy) := rfl
  rw [hpr, hgd] at hkr
  rw [← hkr]
  have hmem := getD_mem (f.layout_paragraph_max_width
      (rem.takeWhile (fun c2 => c2 != Char.ofNat 10)) ind w) k default hklen
  have hh := layout_paragraph_hts f (rem.takeWhile (fun c2 => c2 != Char.ofNat 10))
    ind w _ hmem
  show (_ + cy) - (_ + cy) = f.row_height
  linarith

lemma mlLoop_hts (f : Font) (ι w : ℚ) :
    ∀ (n : ℕ) (rem : List Char) (cy : ℚ) (acc : List Row), rem.length ≤ n →
      (∀ r ∈ acc, r.y_max - r.y_min = f.row_height) →
      ∀ r ∈ (mlLoop f ι w rem cy acc).1, r.y_max - r.y_min = f.row_height := by
  intro n
  induction n with
  | zero =>
      intro rem cy acc hn hacc
      have hrem : rem = [] := List.eq_nil_of_length_eq_zero (by omega)
      subst hrem
      simpa [mlLoop] using hacc
  | succ n2 ih =>
      intro rem cy acc hn hacc
      cases rem with
      | nil => simpa [mlLoop] using hacc
      | cons chr rem1 =>
          rw [mlLoop_cons]
          apply ih _ _ _ (by simp only [List.length_drop, List.length_cons] at hn ⊢; omega)
          intro r hr
          rcases List.mem_append.mp hr with hr | hr
          · exact hacc r hr
          · exact paraRows_hts f w _ cy (chr :: rem1) r hr

lemma paraStep_inert (f : Font) (full : List ℚ) (w : ℚ) (i : ℕ) (x : ℚ) (chr : Char)
    (st : ParaState) (hls : st.last_space = none) (hind : ¬ 0 < st.indent)
    (hbr : breakable chr = false) :
    paraStep f full w i x chr st = st := by
  unfold paraStep
  simp [hls, hind, hbr]

lemma paraLoop_inert (f : Font) (full : List ℚ) (w : ℚ) :
    ∀ (rest : List (ℚ × Char)) (i : ℕ) (st : ParaState),
      st.last_space = none → ¬ 0 < st.indent →
      (∀ p ∈ rest, breakable p.2 = false) →
      paraLoop f full w i rest st = st := by
  intro rest
  induction rest with
  | nil => intro i st _ _ _; rfl
  | cons p rest2 ih =>
      intro i st hls hind hnb
      obtain ⟨x, chr⟩ := p
      show paraLoop f full w (i + 1) rest2 (paraStep f full w i x chr st) = st
      rw [paraStep_inert f full w i x chr st hls hind (hnb (x, chr) (by simp))]
      exact ih (i + 1) st hls hind (fun p hp => hnb p (by simp [hp]))

lemma layout_paragraph_single_word (f : Font) (t : List Char) (w : ℚ)
    (htne : t ≠ []) (hnb : ∀ c ∈ t, breakable c = false) :
    f.layout_paragraph_max_width t 0 w =
      [finalRow f (f.layout_single_row_fragment t) ⟨0, 0, 0, 0, none, []⟩] := by
  have hemp : t.isEmpty = false := by
    cases t with
    | nil => exact absurd rfl htne
    | cons a b => rfl
  rw [layout_paragraph_eq_of_ne f t 0 w hemp]
  have hloop : paraLoop f (f.layout_single_row_fragment t) w 0
      (((f.layout_single_row_fragment t).drop 1).zip t) ⟨0, 0, 0, 0, none, []⟩
      = ⟨0, 0, 0, 0, none, []⟩ := by
    apply paraLoop_inert
    · rfl
    · norm_num
    · intro p hp
      obtain ⟨x, chr⟩ := p
      exact hnb chr (List.of_mem_zip hp).2
  rw [hloop]
  rw [if_pos (by
    show (0 : ℕ) + 1 < (f.layout_single_row_fragment t).length
    rw [layout_single_row_fragment_length]
    have := List.length_pos.mpr htne
    omega)]
  rfl

lemma layout_multiline_var_rows (f : Font) (text : List Char) (ι w : ℚ) :
    (f.layout_multiline_with_indentation_and_max_width text ι w).rows =
      (if text.isEmpty ∨ text.getLast? = some (Char.ofNat 10) then
        (mlLoop f ι w text 0 []).1 ++
          [{ x_offsets := [0], y_min := (mlLoop f ι w text 0 []).2,
             y_max := (mlLoop f ι w text 0 []).2 + f.row_height,
             ends_with_newline := false }]
       else (mlLoop f ι w text 0 []).1) := rfl

lemma multiline_rows_spec (f : Font) (text : List Char) (ι w : ℚ)
    (hw : 0 < w) (hι : 0 ≤ ι) :
    ∃ nr, MlOut f w ι text nr ∧
      ((f.layout_multiline_with_indentation_and_max_width text ι w).rows = nr ∨
        (f.layout_multiline_with_indentation_and_max_width text ι w).rows =
          nr ++ [{ x_offsets := [0], y_min := (mlLoop f ι w text 0 []).2,
                   y_max := (mlLoop f ι w text 0 []).2 + f.row_height,
                   ends_with_newline := false }]) := by
  obtain ⟨nr, heq, hml⟩ := mlLoop_spec f ι w hw hι text.length text 0 [] (le_refl _)
  rw [List.nil_append] at heq
  refine ⟨nr, hml, ?_⟩
  rw [layout_multiline_var_rows, heq]
  split
  · right; rfl
  · left; rfl

lemma multiline_var_hts (f : Font) (text : List Char) (ι w : ℚ) :
    ∀ r ∈ (f.layout_multiline_with_indentation_and_max_width text ι w).rows,
      r.y_max - r.y_min = f.row_height := by
  rw [layout_multiline_var_rows]
  have hloop := mlLoop_hts f ι w text.length text 0 [] (le_refl _)
    (by intro r hr; simp at hr)
  split
  · intro r hr
    rcases List.mem_append.mp hr with hr | hr
    · exact hloop r hr
    · rw [List.mem_singleton.mp hr]
      show (mlLoop f ι w text 0 []).2 + f.row_height - (mlLoop f ι w text 0 []).2
        = f.row_height
      ring
  · exact hloop

lemma weight_sum_split : ∀ (rows : List Row),
    (rows.map rowWeight).sum =
      (rows.map (fun r => r.x_offsets.length - 1)).sum +
        rows.countP (fun r => r.ends_with_newline) := by
  intro rows
  induction rows with
  | nil => rfl
  | cons r tl ih =>
      rw [List.map_cons, List.sum_cons, List.map_cons, List.sum_cons,
        List.countP_cons, ih]
      unfold rowWeight nchars
      rcases hb : r.ends_with_newline with _ | _ <;> simp [hb] <;> omega

/-- C2: for every string `s`, `layout_single_line(s)` returns a Galley with
exactly one row whose `x_offsets` has length `s.char_count() + 1`, starts at
0, and is non-decreasing; a newline character is laid out like any other
character (as the replacement glyph on a cache miss) and never produces an
additional row — the row count is 1 for every input, newlines included. The
monotonicity uses the stated properties of the external font data
(`TameFont`): non-negative advance widths and kerning that never pulls a
glyph back past the previous pixel-rounded cursor. -/
theorem C2_single_line_row (f : Font) (h : TameFont f) (s : List Char) :
    (f.layout_single_line s).rows.length = 1 ∧
    ((f.layout_single_line s).rows.getD 0 default).x_offsets.length = s.length + 1 ∧
    ((f.layout_single_line s).rows.getD 0 default).x_offsets.getD 0 0 = 0 ∧
    List.Chain' (· ≤ ·) ((f.layout_single_line s).rows.getD 0 default).x_offsets := by
  refine ⟨rfl, ?_, ?_, ?_⟩
  · show (f.layout_single_row_fragment s).length = s.length + 1
    exact layout_single_row_fragment_length f s
  · show (f.layout_single_row_fragment s).getD 0 0 = 0
    exact layout_single_row_fragment_head f s
  · show List.Chain' (· ≤ ·) (f.layout_single_row_fragment s)
    unfold Font.layout_single_row_fragment
    exact fragAux_chain f h s 0 none ⟨0, by simp⟩

theorem C2_witness :
    (testFont.layout_single_line ['h', 'i']).rows.length = 1 ∧
    ((testFont.layout_single_line ['h', 'i']).rows.getD 0 default).x_offsets.length
      = ['h', 'i'].length + 1 ∧
    ((testFont.layout_single_line ['h', 'i']).rows.getD 0 default).x_offsets.getD 0 0
      = 0 ∧
    List.Chain' (· ≤ ·)
      ((testFont.layout_single_line ['h', 'i']).rows.getD 0 default).x_offsets :=
  C2_single_line_row testFont testFont_tame ['h', 'i']

/-- C4: glyph-metrics lookup is total — written as a total function it can
signal no error — and when the font has no glyph for `c` (glyph id 0 from the
outline source) and `c` is not cached, `glyph_info` returns the
previously-computed replacement glyph's metrics and inserts them into the
cache under `c`, instead of any error value. -/
theorem C4_missing_glyph_fallback (f : Font) (s : CacheState) (c : Char)
    (hs : s c = none) (hg : f.params.glyphId c = 0) :
    (f.glyph_info s c).1 = f.replacement_glyph_info ∧
    (f.glyph_info s c).2 c = some f.replacement_glyph_info := by
  unfold Font.glyph_info
  rw [hs]
  simp [allocate_glyph, hg]

theorem C4_witness :
    (testFont.glyph_info (fun _ => none) (Char.ofNat 10)).1
      = testFont.replacement_glyph_info ∧
    (testFont.glyph_info (fun _ => none) (Char.ofNat 10)).2 (Char.ofNat 10)
      = some testFont.replacement_glyph_info :=
  C4_missing_glyph_fallback testFont (fun _ => none) (Char.ofNat 10) rfl (by decide)

/-- C5: `glyph_info` (the `metrics_for` of the spec) is idempotent: calling it
again on the state produced by a first call returns the identical metrics and
leaves the cache unchanged, and after the first call the character is present
in the cache, so the second call is the read-only fast path. -/
theorem C5_glyph_info_idempotent (f : Font) (s : CacheState) (c : Char) :
    f.glyph_info (f.glyph_info s c).2 c = ((f.glyph_info s c).1, (f.glyph_info s c).2) ∧
    (f.glyph_info s c).2 c = some (f.glyph_info s c).1 := by
  unfold Font.glyph_info
  cases hs : s c with
  | some gi => simp [hs]
  | none => simp [hs]

/-- C10: `uv_rect` is a pure read of the cache: it returns `none` for a
character that is not cached, and the cache state it passes on is exactly the
input state — no rasterization and no insertion happen, unlike `glyph_info`. -/
theorem C10_uv_rect_pure (f : Font) (s : CacheState) (c : Char) (hs : s c = none) :
    (f.uv_rect s c).1 = none ∧ (f.uv_rect s c).2 = s := by
  unfold Font.uv_rect
  rw [hs]
  exact ⟨rfl, rfl⟩

theorem C10_witness :
    (testFont.uv_rect (fun _ => none) 'x').1 = none ∧
    (testFont.uv_rect (fun _ => none) 'x').2 = (fun _ => none : CacheState) :=
  C10_uv_rect_pure testFont (fun _ => none) 'x' rfl

/-- C9 (implicit): every row of every Galley produced by `layout_single_line`,
`layout_multiline`, or `layout_multiline_with_indentation_and_max_width` has
vertical extent `y_max - y_min` exactly equal to `row_height()`, for every
input string, wrap width and indentation. -/
theorem C9_row_heights (f : Font) (s : List Char) (w ι : ℚ) :
    (∀ r ∈ (f.layout_single_line s).rows, r.y_max - r.y_min = f.row_height) ∧
    (∀ r ∈ (f.layout_multiline s w).rows, r.y_max - r.y_min = f.row_height) ∧
    (∀ r ∈ (f.layout_multiline_with_indentation_and_max_width s ι w).rows,
      r.y_max - r.y_min = f.row_height) := by
  refine ⟨?_, ?_, ?_⟩
  · intro r hr
    simp only [Font.layout_single_line] at hr
    rw [List.mem_singleton.mp hr]
    show f.row_height - 0 = f.row_height
    ring
  · exact multiline_var_hts f s 0 w
  · exact multiline_var_hts f s ι w

/-- C7: for every width `w > 0`, `layout_multiline("", w)` yields a Galley with
exactly one row holding no characters (`x_offsets = [0]`) whose height
`y_max - y_min` is exactly one row height. -/
theorem C7_empty_string (f : Font) (w : ℚ) (hw : 0 < w) :
    (f.layout_multiline [] w).rows.length = 1 ∧
    ((f.layout_multiline [] w).rows.getD 0 default).x_offsets = [0] ∧
    ((f.layout_multiline [] w).rows.getD 0 default).y_max -
      ((f.layout_multiline [] w).rows.getD 0 default).y_min = f.row_height := by
  have hrows : (f.layout_multiline [] w).rows =
      [{ x_offsets := [0], y_min := 0, y_max := 0 + f.row_height,
         ends_with_newline := false }] := by
    show (f.layout_multiline_with_indentation_and_max_width [] 0 w).rows = _
    rw [layout_multiline_var_rows]
    rw [if_pos (Or.inl (show ([] : List Char).isEmpty = true from rfl))]
    have hm : mlLoop f 0 w [] 0 [] = ([], 0) := by rw [mlLoop]
    rw [hm]
    rfl
  rw [hrows]
  refine ⟨rfl, rfl, ?_⟩
  show 0 + f.row_height - 0 = f.row_height
  ring

theorem C7_witness :
    (testFont.layout_multiline [] 1).rows.length = 1 ∧
    ((testFont.layout_multiline [] 1).rows.getD 0 default).x_offsets = [0] ∧
    ((testFont.layout_multiline [] 1).rows.getD 0 default).y_max -
      ((testFont.layout_multiline [] 1).rows.getD 0 default).y_min
      = testFont.row_height :=
  C7_empty_string testFont 1 (by norm_num)

lemma testFont_frag_ab :
    testFont.layout_single_row_fragment ['a', 'b', ' '] = [0, 1, 2, 3] := by
  simp [Font.layout_single_row_fragment, fragAux, glyphInfoPure, allocate_glyph,
    testFont, testParams, Font.round_to_pixel, round_eq]
  norm_num

lemma testFont_step1 : paraStep testFont [0, 1, 2, 3] (5 / 2) 0 1 'a' ⟨0, 0, 0, 0, none, []⟩
    = ⟨0, 0, 0, 0, none, []⟩ := by
  rw [paraStep_no_overflow _ _ _ _ _ _ _ (by norm_num)]
  rw [if_neg (by decide)]

lemma testFont_step2 : paraStep testFont [0, 1, 2, 3] (5 / 2) 1 2 'b' ⟨0, 0, 0, 0, none, []⟩
    = ⟨0, 0, 0, 0, none, []⟩ := by
  rw [paraStep_no_overflow _ _ _ _ _ _ _ (by norm_num)]
  rw [if_neg (by decide)]

lemma testFont_step3 : paraStep testFont [0, 1, 2, 3] (5 / 2) 2 3 ' ' ⟨0, 0, 0, 0, none, []⟩
    = ⟨0, 0, 0, 0, some 2, []⟩ := by
  rw [paraStep_stuck _ _ _ _ _ _ _ (by norm_num) rfl (by simp)]
  rw [if_pos (by decide)]

lemma testFont_loop_ab : paraLoop testFont [0, 1, 2, 3] (5 / 2) 0
    [(1, 'a'), (2, 'b'), (3, ' ')] ⟨0, 0, 0, 0, none, []⟩
    = ⟨0, 0, 0, 0, some 2, []⟩ := by
  show paraLoop testFont [0, 1, 2, 3] (5 / 2) 1 [(2, 'b'), (3, ' ')]
    (paraStep testFont [0, 1, 2, 3] (5 / 2) 0 1 'a' ⟨0, 0, 0, 0, none, []⟩) = _
  rw [testFont_step1]
  show paraLoop testFont [0, 1, 2, 3] (5 / 2) 2 [(3, ' ')]
    (paraStep testFont [0, 1, 2, 3] (5 / 2) 1 2 'b' ⟨0, 0, 0, 0, none, []⟩) = _
  rw [testFont_step2]
  show paraLoop testFont [0, 1, 2, 3] (5 / 2) 3 []
    (paraStep testFont [0, 1, 2, 3] (5 / 2) 2 3 ' ' ⟨0, 0, 0, 0, none, []⟩) = _
  rw [testFont_step3]
  rfl

lemma testFont_para_ab : testFont.layout_paragraph_max_width ['a', 'b', ' '] 0 (5 / 2)
    = [finalRow testFont [0, 1, 2, 3] ⟨0, 0, 0, 0, some 2, []⟩] := by
  rw [layout_paragraph_eq_of_ne testFont ['a', 'b', ' '] 0 (5 / 2) rfl]
  rw [testFont_frag_ab]
  rw [show (([0, 1, 2, 3] : List ℚ).drop 1).zip ['a', 'b', ' ']
    = [((1 : ℚ), 'a'), (2, 'b'), (3, ' ')] from rfl]
  rw [testFont_loop_ab]
  rw [if_pos (by norm_num)]
  rfl

lemma testFont_rows_ab : (testFont.layout_multiline ['a', 'b', ' '] (5 / 2)).rows
    = [{ x_offsets := [0, 1, 2, 3], y_min := 0, y_max := 1,
         ends_with_newline := false }] := by
  show (testFont.layout_multiline_with_indentation_and_max_width
    ['a', 'b', ' '] 0 (5 / 2)).rows = _
  rw [layout_multiline_var_rows, if_neg (by decide)]
  rw [mlLoop_cons]
  rw [show (['a', 'b', ' '].drop ((['a', 'b', ' '].takeWhile
      (fun c2 => c2 != Char.ofNat 10)).length + 1)) = ([] : List Char) from rfl, mlLoop]
  show ([] : List Row) ++ paraRows testFont (5 / 2)
    (if (List.isEmpty ([] : List Row)) then (0 : ℚ) else 0) 0 ['a', 'b', ' '] = _
  rw [List.nil_append]
  have h1 : paraRows testFont (5 / 2)
      (if (List.isEmpty ([] : List Row)) then (0 : ℚ) else 0) 0 ['a', 'b', ' ']
      = (setLastNewlineFlag
          (testFont.layout_paragraph_max_width ['a', 'b', ' '] 0 (5 / 2)) false).map
          (shiftRow 0) := rfl
  rw [h1, testFont_para_ab]
  simp [setLastNewlineFlag, shiftRow, finalRow, Font.row_height, testFont, testParams]

lemma multiline_rows_pos (f : Font) (text : List Char) (ι w : ℚ)
    (hw : 0 < w) (hι : 0 ≤ ι) :
    0 < (f.layout_multiline_with_indentation_and_max_width text ι w).rows.length := by
  rw [layout_multiline_var_rows]
  by_cases hcond : (text.isEmpty = true ∨ text.getLast? = some (Char.ofNat 10))
  · rw [if_pos hcond]
    simp
  · rw [if_neg hcond]
    obtain ⟨nr, heq, hml⟩ := mlLoop_spec f ι w hw hι text.length text 0 [] (le_refl _)
    rw [List.nil_append] at heq
    rw [heq]
    have htne : text ≠ [] := by
      intro hc
      exact hcond (Or.inl (by rw [hc]; rfl))
    exact List.length_pos.mpr (hml.ne htne)

/-- C1 (amended): for every string `s` and width `w > 0`,
`layout_multiline(s, w)` returns at least one row, and every row either has
rendered width (last offset minus first offset) at most `w`, or consists of a
single unbreakable word possibly followed by one trailing whitespace
character (`GoodRow`): all its characters except possibly the last are
non-breakable. The original claim excused only a single word wider than `w`;
the trailing whitespace kept on a broken row also counts against the width
(see the counterexample), which is the one correction. The algorithm never
forces a mid-word break. -/
theorem C1_wrap_width (f : Font) (s : List Char) (w : ℚ) (hw : 0 < w) :
    0 < (f.layout_multiline s w).rows.length ∧
      ∀ k, k < (f.layout_multiline s w).rows.length →
        GoodRow s w (f.layout_multiline s w).rows k := by
  refine ⟨multiline_rows_pos f s 0 w hw (le_refl 0), ?_⟩
  intro k hk
  show GoodRow s w (f.layout_multiline_with_indentation_and_max_width s 0 w).rows k
  have hk2 : k < (f.layout_multiline_with_indentation_and_max_width s 0 w).rows.length :=
    hk
  obtain ⟨nr, hml, hcase⟩ := multiline_rows_spec f s 0 w hw (le_refl 0)
  rcases hcase with hre | hre
  · rw [hre] at hk2 ⊢
    exact hml.good k hk2
  · rw [hre] at hk2 ⊢
    rw [List.length_append, List.length_cons, List.length_nil] at hk2
    rcases Nat.lt_succ_iff_lt_or_eq.mp hk2 with hklt | hkeq
    · exact GoodRow_append_of_lt s w nr _ k hklt (hml.good k hklt)
    · subst hkeq
      left
      rw [getD_append_right_self]
      simp only [List.getD_cons_zero]
      simp [rowWidth, lastOff, headOff]
      linarith

/-- C1 counterexample to the original claim: with unit advance widths, laying
out `"ab "` at width `5/2` produces a single row of rendered width `3 > 5/2`
(the trailing space is kept on the row), yet every contiguous run of
non-breakable characters of the text — every candidate word, measured by the
same cumulative offsets — has width at most `2 ≤ 5/2`. So a row can exceed
`w` without any single word alone exceeding `w`. -/
theorem C1_counterexample :
    0 < (testFont.layout_multiline ['a', 'b', ' '] (5 / 2)).rows.length ∧
    (5 / 2 : ℚ) <
      rowWidth ((testFont.layout_multiline ['a', 'b', ' '] (5 / 2)).rows.getD 0 default) ∧
    (∀ b2, b2 ≤ 3 → ∀ a2, a2 < b2 →
      (∀ j, a2 ≤ j → j < b2 → breakable (['a', 'b', ' '].getD j ' ') = false) →
      wdiff (testFont.layout_single_row_fragment ['a', 'b', ' ']) a2 b2 ≤ 5 / 2) := by
  refine ⟨?_, ?_, ?_⟩
  · rw [testFont_rows_ab]
    norm_num
  · rw [testFont_rows_ab]
    simp [rowWidth, lastOff, headOff]
    norm_num
  · intro b2 hb2 a2 ha2 hrun
    rw [testFont_frag_ab]
    interval_cases b2
    · exact absurd ha2 (by omega)
    · interval_cases a2
      · norm_num [wdiff]
    · interval_cases a2 <;> norm_num [wdiff]
    · exact absurd (hrun 2 (by omega) (by omega)) (by decide)

theorem C1_witness :
    0 < (testFont.layout_multiline ['a', 'b', ' '] (5 / 2)).rows.length ∧
      GoodRow ['a', 'b', ' '] (5 / 2)
        (testFont.layout_multiline ['a', 'b', ' '] (5 / 2)).rows 0 :=
  ⟨(C1_wrap_width testFont ['a', 'b', ' '] (5 / 2) (by norm_num)).1,
    (C1_wrap_width testFont ['a', 'b', ' '] (5 / 2) (by norm_num)).2 0
      (by rw [testFont_rows_ab]; norm_num)⟩

/-- C3: the rows of `layout_multiline(s, w)` partition the characters of `s`
exactly: the sum over rows of `x_offsets.length - 1` (the characters laid out
on the row) plus the number of rows marked `ends_with_newline` (the newline
characters consumed from the source) equals the character count of `s` — no
character is dropped or duplicated by wrapping. -/
theorem C3_char_partition (f : Font) (s : List Char) (w : ℚ) (hw : 0 < w) :
    ((f.layout_multiline s w).rows.map (fun r => r.x_offsets.length - 1)).sum +
      ((f.layout_multiline s w).rows.filter (fun r => r.ends_with_newline)).length
      = s.length := by
  show ((f.layout_multiline_with_indentation_and_max_width s 0 w).rows.map
      (fun r => r.x_offsets.length - 1)).sum +
    ((f.layout_multiline_with_indentation_and_max_width s 0 w).rows.filter
      (fun r => r.ends_with_newline)).length = s.length
  obtain ⟨nr, hml, hcase⟩ := multiline_rows_spec f s 0 w hw (le_refl 0)
  have key : ∀ rows : List Row, (rows.map rowWeight).sum = s.length →
      (rows.map (fun r => r.x_offsets.length - 1)).sum +
        (rows.filter (fun r => r.ends_with_newline)).length = s.length := by
    intro rows hsum
    rw [weight_sum_split] at hsum
    rw [← List.countP_eq_length_filter]
    exact hsum
  rcases hcase with hre | hre
  · rw [hre]
    exact key nr hml.nsum
  · rw [hre]
    apply key
    rw [List.map_append, List.sum_append, hml.nsum]
    simp [rowWeight, nchars]

theorem C3_witness :
    ((testFont.layout_multiline ['a', ' ', 'b', Char.ofNat 10, 'c'] 1).rows.map
        (fun r => r.x_offsets.length - 1)).sum +
      ((testFont.layout_multiline ['a', ' ', 'b', Char.ofNat 10, 'c'] 1).rows.filter
        (fun r => r.ends_with_newline)).length
      = ['a', ' ', 'b', Char.ofNat 10, 'c'].length :=
  C3_char_partition testFont ['a', ' ', 'b', Char.ofNat 10, 'c'] 1 (by norm_num)

/-- C6: for every width `w > 0`, `layout_multiline("abc\n", w)` yields a row
laying out the three characters `abc` (four offsets) marked
`ends_with_newline = true`, followed by exactly one additional blank row; and
in general the rows marked `ends_with_newline = true` are exactly as many as
the explicit newlines of the source (each paragraph's last row is flagged iff
the paragraph was terminated by a newline rather than end-of-string). -/
theorem C6_trailing_newline (f : Font) (w : ℚ) (hw : 0 < w) :
    ((f.layout_multiline ['a', 'b', 'c', Char.ofNat 10] w).rows.map
        (fun r => (r.x_offsets.length, r.ends_with_newline)))
      = [(4, true), (1, false)] ∧
    (∀ s : List Char,
      ((f.layout_multiline s w).rows.filter (fun r => r.ends_with_newline)).length
        = s.count (Char.ofNat 10)) := by
  constructor
  · have hpara : f.layout_paragraph_max_width ['a', 'b', 'c'] 0 w =
        [finalRow f (f.layout_single_row_fragment ['a', 'b', 'c'])
          ⟨0, 0, 0, 0, none, []⟩] :=
      layout_paragraph_single_word f ['a', 'b', 'c'] w (by simp) (by decide)
    show ((f.layout_multiline_with_indentation_and_max_width
      ['a', 'b', 'c', Char.ofNat 10] 0 w).rows.map
        (fun r => (r.x_offsets.length, r.ends_with_newline))) = _
    rw [layout_multiline_var_rows, if_pos (Or.inr (by decide))]
    rw [mlLoop_cons]
    rw [show (['a', 'b', 'c', Char.ofNat 10].drop
        ((['a', 'b', 'c', Char.ofNat 10].takeWhile
          (fun c2 => c2 != Char.ofNat 10)).length + 1)) = ([] : List Char) from rfl,
      mlLoop]
    have h1 : paraRows f w
        (if (List.isEmpty ([] : List Row)) then (0 : ℚ) else 0) 0
        ['a', 'b', 'c', Char.ofNat 10]
        = (setLastNewlineFlag (f.layout_paragraph_max_width ['a', 'b', 'c'] 0 w)
            true).map (shiftRow 0) := rfl
    show ((([] : List Row) ++ paraRows f w
        (if (List.isEmpty ([] : List Row)) then (0 : ℚ) else 0) 0
        ['a', 'b', 'c', Char.ofNat 10]) ++ [_]).map _ = _
    rw [h1, hpara]
    simp [setLastNewlineFlag, shiftRow, finalRow, layout_single_row_fragment_length]
  · intro s
    show ((f.layout_multiline_with_indentation_and_max_width s 0 w).rows.filter
        (fun r => r.ends_with_newline)).length = s.count (Char.ofNat 10)
    obtain ⟨nr, hml, hcase⟩ := multiline_rows_spec f s 0 w hw (le_refl 0)
    rcases hcase with hre | hre
    · rw [hre, ← List.countP_eq_length_filter]
      exact hml.flagcnt
    · rw [hre, ← List.countP_eq_length_filter, List.countP_append]
      rw [hml.flagcnt]
      simp

theorem C6_witness :
    ((testFont.layout_multiline ['a', 'b', 'c', Char.ofNat 10] 1).rows.map
        (fun r => (r.x_offsets.length, r.ends_with_newline)))
      = [(4, true), (1, false)] ∧
    (∀ s : List Char,
      ((testFont.layout_multiline s 1).rows.filter
        (fun r => r.ends_with_newline)).length = s.count (Char.ofNat 10)) :=
  C6_trailing_newline testFont 1 (by norm_num)

/-- C8 (amended): for a layout with indentation `ι > 0` and a NON-EMPTY text,
the first row's first offset equals `ι` (for the empty string the single
pushed blank row starts at 0 instead — the one correction, forced by the
counterexample); every row after the first starts at offset 0, i.e. all
subsequent rows of the layout are laid out with zero indentation; and at most
one row of the whole layout is the indentation-only blank row `[ι]` — the
blank-first-row special case fires at most once. -/
theorem C8_first_row_indentation (f : Font) (s : List Char) (ι w : ℚ)
    (hι : 0 < ι) (hw : 0 < w) (hs : s ≠ []) :
    headOff ((f.layout_multiline_with_indentation_and_max_width s ι w).rows.headD
      default) = ι ∧
    (∀ k, 1 ≤ k →
      k < (f.layout_multiline_with_indentation_and_max_width s ι w).rows.length →
      headOff ((f.layout_multiline_with_indentation_and_max_width s ι w).rows.getD k
        default) = 0) ∧
    (f.layout_multiline_with_indentation_and_max_width s ι w).rows.countP
      (fun r => r.x_offsets = [ι]) ≤ 1 := by
  obtain ⟨nr, hml, hcase⟩ := multiline_rows_spec f s ι w hw hι.le
  have hnrne : nr ≠ [] := hml.ne hs
  have hhead : headOff ((f.layout_multiline_with_indentation_and_max_width
      s ι w).rows.headD default) = ι := by
    rcases hcase with hre | hre <;> rw [hre]
    · exact hml.hhead hs
    · cases hnr : nr with
      | nil => exact absurd hnr hnrne
      | cons r0 tl =>
          simp only [List.cons_append, List.headD_cons]
          have hh := hml.hhead hs
          rw [hnr] at hh
          simpa using hh
  have htail : ∀ k, 1 ≤ k →
      k < (f.layout_multiline_with_indentation_and_max_width s ι w).rows.length →
      headOff ((f.layout_multiline_with_indentation_and_max_width s ι w).rows.getD k
        default) = 0 := by
    intro k hk1 hk2
    rcases hcase with hre | hre <;> rw [hre] <;> rw [hre] at hk2
    · exact hml.htail k hk1 hk2
    · rw [List.length_append, List.length_cons, List.length_nil] at hk2
      rcases Nat.lt_succ_iff_lt_or_eq.mp hk2 with hklt | hkeq
      · rw [getD_append_of_lt _ _ _ _ hklt]
        exact hml.htail k hk1 hklt
      · subst hkeq
        rw [getD_append_right_self]
        rfl
  refine ⟨hhead, htail, ?_⟩
  apply countP_le_one_of_tail
  intro k hk1 hk2
  rw [decide_eq_false_iff_not]
  intro hcontra
  have h0 := htail k hk1 hk2
  unfold headOff at h0
  rw [hcontra] at h0
  simp at h0
  linarith

theorem C8_counterexample :
    (0 : ℚ) < 20 ∧
    (testFont.layout_multiline_with_indentation_and_max_width [] 20 5).rows.length
      = 1 ∧
    headOff ((testFont.layout_multiline_with_indentation_and_max_width
      [] 20 5).rows.headD default) = 0 ∧
    (0 : ℚ) ≠ 20 := by
  have hrows : (testFont.layout_multiline_with_indentation_and_max_width
      [] 20 5).rows
      = [{ x_offsets := [0], y_min := 0, y_max := 0 + testFont.row_height,
           ends_with_newline := false }] := by
    rw [layout_multiline_var_rows,
      if_pos (Or.inl (show ([] : List Char).isEmpty = true from rfl))]
    have hm : mlLoop testFont 20 5 [] 0 [] = ([], 0) := by rw [mlLoop]
    rw [hm]
    rfl
  refine ⟨by norm_num, by rw [hrows]; rfl, ?_, by norm_num⟩
  rw [hrows]
  simp [headOff]

theorem C8_witness :
    headOff ((testFont.layout_multiline_with_indentation_and_max_width
      ['a', 'b', ' ', 'c', 'd'] 20 4).rows.headD default) = 20 ∧
    (∀ k, 1 ≤ k →
      k < (testFont.layout_multiline_with_indentation_and_max_width
        ['a', 'b', ' ', 'c', 'd'] 20 4).rows.length →
      headOff ((testFont.layout_multiline_with_indentation_and_max_width
        ['a', 'b', ' ', 'c', 'd'] 20 4).rows.getD k default) = 0) ∧
    (testFont.layout_multiline_with_indentation_and_max_width
      ['a', 'b', ' ', 'c', 'd'] 20 4).rows.countP
        (fun r => r.x_offsets = [(20 : ℚ)]) ≤ 1 :=
  C8_first_row_indentation testFont ['a', 'b', ' ', 'c', 'd'] 20 4
    (by norm_num) (by norm_num) (by simp)

end FontSpec
